import Mathlib

/-!
Verification of the relay-graph model and layout engine of the Iter
repository (`src/core/types.rs`, `src/graph/graph_layout.rs`,
`src/analysis/ast_analyzer.rs`, `src/core/orchestrator.rs`).

Modelling conventions, stated once:

* Rust `u32`/`usize` values (node ids, layers, counters) are modelled by
  `Nat`: the code never wraps them intentionally and no claim concerns
  overflow behaviour.
* Rust `f64` is modelled by `ℝ` (layout coordinates, forces) or by `ℚ`
  (barycenter keys, where only exactly-representable values appear in the
  statements proved).
* `HashMap`/`HashSet` are queried only through membership/lookup, so they
  are modelled by association lists / membership in lists; where the code
  iterates over a hash map (an unspecified order), the model fixes one
  order and every theorem proved about it is order-independent.
* `while let Some(id) = queue.pop_front()` loops are modelled with an
  explicit fuel parameter; termination theorems show the fuel chosen in
  the top-level definitions is sufficient, so the fuel-out branch is dead
  on the inputs the code actually runs on.
-/

namespace Iter

/-- `NodeType` from `src/core/types.rs`. -/
inductive NodeType where
  | Function | Type | Variable | Include | ErrorSource
deriving DecidableEq, Repr

/-- `EdgeType` from `src/core/types.rs`. -/
inductive EdgeType where
  | Call | Reference | Include | Inherit | ErrorPath
deriving DecidableEq, Repr

/-- `GraphNode` from `src/core/types.rs`. Coordinates and sizes are `f64`
in the source, modelled by `ℝ`. -/
structure GraphNode where
  id : Nat
  file_path : String
  line : Nat
  column : Nat
  symbol_name : String
  node_type : NodeType
  is_error : Bool
  x : ℝ
  y : ℝ
  width : ℝ
  height : ℝ
  expanded : Bool

/-- `GraphEdge` from `src/core/types.rs`. -/
structure GraphEdge where
  source_id : Nat
  target_id : Nat
  edge_type : EdgeType
  on_error_path : Bool
deriving DecidableEq, Repr

/-- `RelayGraph` from `src/core/types.rs`. -/
structure RelayGraph where
  nodes : List GraphNode
  edges : List GraphEdge

/-- Constants from `src/core/config.rs` used by the layout engine. -/
def NODE_COLLAPSED_W : ℝ := 180
def NODE_COLLAPSED_H : ℝ := 100
def LAYOUT_NODE_GAP_X : ℝ := 60
def LAYOUT_NODE_GAP_Y : ℝ := 40

/-- `GraphNode::new` from `src/core/types.rs`. -/
def GraphNode.new (id : Nat) (symbol_name : String) (node_type : NodeType) :
    GraphNode where
  id := id
  file_path := ""
  line := 0
  column := 0
  symbol_name := symbol_name
  node_type := node_type
  is_error := false
  x := 0
  y := 0
  width := NODE_COLLAPSED_W
  height := NODE_COLLAPSED_H
  expanded := false

/-- The ids of the nodes of a graph, in insertion order. -/
def nodeIds (g : RelayGraph) : List Nat := g.nodes.map GraphNode.id

/-- Forward adjacency built from the edge list, as in
`GraphLayout::has_cycle` and `GraphLayout::assign_layers`: per source id,
the targets of its edges in edge-list order (the `HashMap` is only ever
looked up by key, so it is modelled as this lookup function). -/
def adjOf (g : RelayGraph) (s : Nat) : List Nat :=
  (g.edges.filter (fun e => e.source_id = s)).map GraphEdge.target_id

/-- One step of a directed relation given by adjacency lists. -/
def AStep (adj : Nat → List Nat) (a b : Nat) : Prop := b ∈ adj a

/-- Reachability in the relation given by adjacency lists. -/
def AReach (adj : Nat → List Nat) : Nat → Nat → Prop :=
  Relation.ReflTransGen (AStep adj)

/-- A directed cycle is reachable from `v`. -/
def ACycleFrom (adj : Nat → List Nat) (v : Nat) : Prop :=
  ∃ w x, AReach adj v w ∧ AStep adj w x ∧ AReach adj x w

/-- One directed step of the edge relation of a graph. -/
def Step (g : RelayGraph) : Nat → Nat → Prop := AStep (adjOf g)

/-- Reachability in the directed edge relation of a graph. -/
def Reaches (g : RelayGraph) : Nat → Nat → Prop := AReach (adjOf g)

/-- A directed cycle of the graph's edge relation is reachable from `v`. -/
def CycleFrom (g : RelayGraph) (v : Nat) : Prop := ACycleFrom (adjOf g) v

/-- A directed cycle is reachable from the id of some node of the graph —
this is exactly what the DFS of `GraphLayout::has_cycle` explores. -/
def HasCycleVia (g : RelayGraph) : Prop :=
  ∃ r ∈ nodeIds g, CycleFrom g r

/-- The edge relation itself contains a directed cycle (anywhere, also
among ids that are not present as nodes). -/
def HasCycleAnywhere (g : RelayGraph) : Prop :=
  ∃ v, CycleFrom g v

/-! ## Cycle detection (`GraphLayout::has_cycle` / `dfs_cycle`)

The Rust `dfs_cycle` mutates a `visited` set and a `rec_stack` set.  The
`rec_stack` obeys a stack discipline (a node is removed exactly when its
call returns `false`), so at each point of execution it equals the chain
of currently active calls; the functional model therefore passes the
chain down as the list `rec` and threads `visited` through.  The neighbor
loop is the separate function `dfsFold`, parameterized by the recursive
visit so that `dfsVisit` is structurally recursive in an explicit fuel;
fuel decreases once per nested visit, and `hasCycleFuel` below is proved
sufficient (recursion depth is bounded by the number of distinct ids). -/

/-- The loop `for &next in neighbors` of `dfs_cycle`: `rec` is the
current recursion chain (innermost first), `vis` the visited set. -/
def dfsFold (visit : Nat → List Nat → Option (List Nat × Bool))
    (rec : List Nat) : List Nat → List Nat → Option (List Nat × Bool)
  | [], vis => some (vis, false)
  | v :: rest, vis =>
    if v ∈ vis then
      if v ∈ rec then some (vis, true) else dfsFold visit rec rest vis
    else
      match visit v vis with
      | none => none
      | some (vis', true) => some (vis', true)
      | some (vis', false) => dfsFold visit rec rest vis'

/-- `GraphLayout::dfs_cycle`: visit `u` (assumed unvisited), with
recursion chain `rec` and visited set `vis`.  `none` means the fuel ran
out (proved unreachable for the fuel used by `hasCycle`). -/
def dfsVisit (adj : Nat → List Nat) : Nat → Nat → List Nat → List Nat →
    Option (List Nat × Bool)
  | 0, _, _, _ => none
  | f + 1, u, rec, vis =>
    dfsFold (fun v vis' => dfsVisit adj f v (u :: rec) vis') (u :: rec)
      (adj u) (u :: vis)

/-- The outer loop of `GraphLayout::has_cycle`: DFS from every unvisited
node id, in node insertion order. -/
def hasCycleRoots (adj : Nat → List Nat) (fuel : Nat) :
    List Nat → List Nat → Option Bool
  | [], _ => some false
  | r :: rest, vis =>
    if r ∈ vis then hasCycleRoots adj fuel rest vis
    else
      match dfsVisit adj fuel r [] vis with
      | none => none
      | some (_, true) => some true
      | some (vis', false) => hasCycleRoots adj fuel rest vis'

/-- Every id mentioned by the graph (node ids and edge endpoints);
recursion depth of the DFS is bounded by its length. -/
def idsOf (g : RelayGraph) : List Nat :=
  (nodeIds g ++ g.edges.map GraphEdge.source_id ++
    g.edges.map GraphEdge.target_id).dedup

/-- Fuel used by `hasCycle`; proved sufficient below. -/
def hasCycleFuel (g : RelayGraph) : Nat := (idsOf g).length + 1

/-- `GraphLayout::has_cycle`.  The `getD false` default is dead code:
`hasCycle_run_eq` proves the fuel never runs out. -/
def hasCycle (g : RelayGraph) : Bool :=
  (hasCycleRoots (adjOf g) (hasCycleFuel g) (nodeIds g) []).getD false

/-- The recursion chain of the DFS, innermost call first: consecutive
entries are connected by an edge from parent to child. -/
def ChainUp (adj : Nat → List Nat) (l : List Nat) : Prop :=
  l.Chain' (fun a b => AStep adj b a)

/-- Fully-explored ("black") nodes — visited and off the current
recursion chain — have no reachable cycle. -/
def BlackOK (adj : Nat → List Nat) (vis rec : List Nat) : Prop :=
  ∀ b ∈ vis, b ∉ rec → ¬ ACycleFrom adj b

/-! ### Concrete graphs used in counterexamples and witnesses -/

/-- A `Call` edge, for building concrete test graphs. -/
def mkCallEdge (s t : Nat) : GraphEdge :=
  { source_id := s, target_id := t, edge_type := EdgeType.Call,
    on_error_path := false }

/-- One node (id 1) and one edge `5 → 5` between ids that are not nodes:
the edge relation has a cycle, but the DFS, which only starts from node
ids, never sees it. -/
def gDanglingCycle : RelayGraph :=
  { nodes := [GraphNode.new 1 "a" NodeType.Function],
    edges := [mkCallEdge 5 5] }

/-- Two nodes with a single edge `0 → 1`. -/
def gPair : RelayGraph :=
  { nodes := [GraphNode.new 0 "a" NodeType.Function,
              GraphNode.new 1 "b" NodeType.Function],
    edges := [mkCallEdge 0 1] }

/-- `gPair` with its node list transposed (same structure). -/
def gPairSwapped : RelayGraph :=
  { nodes := [GraphNode.new 1 "b" NodeType.Function,
              GraphNode.new 0 "a" NodeType.Function],
    edges := [mkCallEdge 0 1] }

/-- One node with a self-loop edge. -/
def gSelfLoop : RelayGraph :=
  { nodes := [GraphNode.new 0 "a" NodeType.Function],
    edges := [mkCallEdge 0 0] }

/-- One node (id 3) and no edges at all. -/
def gNoEdges : RelayGraph :=
  { nodes := [GraphNode.new 3 "c" NodeType.Function], edges := [] }

/-! ## Layer assignment (`GraphLayout::assign_layers`)

The `node_layer : HashMap<u32, usize>` is modelled as an association
list (`mlookup`/`minsert`); the `VecDeque` queue as a list with `pop`
at the head and `push_back` via append.  The while-loop is modelled with
fuel (`runLayers`); `layerFuel` is proved sufficient whenever
`has_cycle` returned `false`, which is the only situation in which
`auto_layout` invokes this code.  A `none` result models either fuel
exhaustion or the (provably unreachable) panic of `node_layer[&id]` on a
missing key. -/

/-- Association-list lookup, modelling `HashMap::get`. -/
def mlookup : List (Nat × Nat) → Nat → Option Nat
  | [], _ => none
  | (k, v) :: rest, k' => if k = k' then some v else mlookup rest k'

/-- Association-list insert-or-update, modelling `HashMap::insert`. -/
def minsert : List (Nat × Nat) → Nat → Nat → List (Nat × Nat)
  | [], k, v => [(k, v)]
  | (k₀, v₀) :: rest, k, v =>
    if k₀ = k then (k₀, v) :: rest else (k₀, v₀) :: minsert rest k v

/-- In-degree of an id over all edges, as computed by `assign_layers`. -/
def inDegree (g : RelayGraph) (id : Nat) : Nat :=
  (g.edges.filter (fun e => e.target_id = id)).length

/-- The key set of the `in_degree` map: every node id and every edge
target.  The Rust code iterates this `HashMap` in an unspecified order;
the model fixes this order, and every property proved below is
independent of it. -/
def inDegreeKeys (g : RelayGraph) : List Nat :=
  (nodeIds g ++ g.edges.map GraphEdge.target_id).dedup

/-- The seeds of the BFS: in-degree-0 ids; if none, the error nodes; if
still none, the first node. -/
def seedsOf (g : RelayGraph) : List Nat :=
  if ((inDegreeKeys g).filter (fun id => inDegree g id = 0)).isEmpty then
    if ((g.nodes.filter (fun n => n.is_error)).map GraphNode.id).isEmpty then
      (nodeIds g).take 1
    else (g.nodes.filter (fun n => n.is_error)).map GraphNode.id
  else (inDegreeKeys g).filter (fun id => inDegree g id = 0)

/-- State of the layer-propagation loop: the `node_layer` map and the
queue. -/
structure LState where
  m : List (Nat × Nat)
  q : List Nat

/-- Initial state: seeds at layer 0, queue holding the seeds. -/
def initLState (g : RelayGraph) : LState :=
  { m := (seedsOf g).foldl (fun m id => minsert m id 0) [],
    q := seedsOf g }

/-- Body of `for &next in neighbors`: `entry(next).or_insert(0)`, raise
to `layer + 1` if larger, unconditionally push `next`. -/
def relaxOne (L : Nat) (st : LState) (v : Nat) : LState :=
  let cur := (mlookup st.m v).getD 0
  { m := minsert st.m v (max cur (L + 1)), q := st.q ++ [v] }

/-- The `while let Some(id) = queue.pop_front()` loop of `assign_layers`.
`none` models fuel exhaustion (the loop still running) or the panic of
`node_layer[&id]` on a missing key. -/
def runLayers (adj : Nat → List Nat) : Nat → LState → Option (List (Nat × Nat))
  | 0, st => if st.q.isEmpty then some st.m else none
  | f + 1, st =>
    match st.q with
    | [] => some st.m
    | u :: q' =>
      match mlookup st.m u with
      | none => none
      | some L =>
        runLayers adj f ((adj u).foldl (relaxOne L) { m := st.m, q := q' })

/-- Number of directed walks of length `≤ fuel` starting at `v` —
the termination measure of the propagation loop, since each pop of `u`
removes exactly one walk-count and re-adds the counts of its
successors. -/
def pcount (adj : Nat → List Nat) : Nat → Nat → Nat
  | 0, _ => 1
  | f + 1, v => 1 + ((adj v).map (pcount adj f)).sum

/-- Termination measure of a queue. -/
def layerMeasure (adj : Nat → List Nat) (N : Nat) (q : List Nat) : Nat :=
  (q.map (pcount adj N)).sum

/-- Fuel for `runLayers`; proved sufficient when `has_cycle` is false. -/
def layerFuel (g : RelayGraph) : Nat :=
  layerMeasure (adjOf g) (idsOf g).length (seedsOf g) + 1

/-- The propagation part of `assign_layers` (before unvisited nodes are
filled in). -/
def assignLayersCore (g : RelayGraph) : Option (List (Nat × Nat)) :=
  runLayers (adjOf g) (layerFuel g) (initLState g)

/-- `// Assign unvisited nodes to layer 0`. -/
def fillLayers (g : RelayGraph) (m : List (Nat × Nat)) : List (Nat × Nat) :=
  g.nodes.foldl
    (fun m' n => if (mlookup m' n.id).isSome then m' else minsert m' n.id 0) m

/-- The full layer map of `assign_layers`: propagation, then unvisited
nodes at layer 0. -/
def assignLayersMap (g : RelayGraph) : Option (List (Nat × Nat)) :=
  (assignLayersCore g).map (fillLayers g)

/-- `// Group by layer`: bucket ids by layer value, in map order (the
Rust `HashMap` iteration order is unspecified; properties proved below
do not depend on it). -/
def groupLayers (m : List (Nat × Nat)) : List (List Nat) :=
  let maxL := (m.map Prod.snd).foldl max 0
  (List.range (maxL + 1)).map
    (fun li => (m.filter (fun p => p.2 = li)).map Prod.fst)

/-- `GraphLayout::assign_layers`. -/
def assignLayers (g : RelayGraph) : Option (List (List Nat)) :=
  (assignLayersMap g).map groupLayers

/-- The Rust propagation loop terminates (with some amount of fuel) —
its negation at a concrete graph exhibits divergence. -/
def layerLoopTerminates (g : RelayGraph) : Prop :=
  ∃ fuel m, runLayers (adjOf g) fuel (initLState g) = some m

/-- Loop invariant of the propagation: for every id already in the map
with an out-edge, either the id still sits in the queue (so its edges
will be relaxed again), or the target's recorded layer already exceeds
the source's. -/
def LayerInv (adj : Nat → List Nat) (st : LState) : Prop :=
  ∀ u v Lu, AStep adj u v → mlookup st.m u = some Lu →
    u ∈ st.q ∨ ∃ Lv, mlookup st.m v = some Lv ∧ Lu + 1 ≤ Lv

/-! ## Crossing minimization (`GraphLayout::minimize_crossings` /
`GraphLayout::barycenter`)

Position values are `f64` in the source; the model uses `ℚ`.  Every
value appearing in the statements proved below (position indices and the
0.0 default) is exactly representable in `f64`.  `sort_by` is a stable
sort; any two stable sorts under the same total preorder produce the
same list, so the model uses a stable insertion sort. -/

/-- Association-list lookup with rational values, modelling the
`pos_in_layer : HashMap<u32, f64>`. -/
def qlookup : List (Nat × ℚ) → Nat → Option ℚ
  | [], _ => none
  | (k, v) :: rest, k' => if k = k' then some v else qlookup rest k'

/-- Association-list insert-or-update with rational values. -/
def qinsert : List (Nat × ℚ) → Nat → ℚ → List (Nat × ℚ)
  | [], k, v => [(k, v)]
  | (k₀, v₀) :: rest, k, v =>
    if k₀ = k then (k₀, v) :: rest else (k₀, v₀) :: qinsert rest k v

/-- The undirected adjacency list built at the start of
`minimize_crossings`: per id, for each edge in order, the other
endpoint (both directions pushed). -/
def undirAdjList (g : RelayGraph) (id : Nat) : List Nat :=
  g.edges.foldr
    (fun e acc =>
      (if e.source_id = id then [e.target_id] else []) ++
      (if e.target_id = id then [e.source_id] else []) ++ acc) []

/-- `adj.get(&node)` of `minimize_crossings`: a `HashMap` entry exists
exactly when at least one push for that key happened, i.e. when the
per-key list is nonempty. -/
def undirAdjGet (g : RelayGraph) (id : Nat) : Option (List Nat) :=
  if undirAdjList g id = [] then none else some (undirAdjList g id)

/-- `GraphLayout::barycenter`: average recorded position of neighbors;
`0.0` when the id has no adjacency entry or no neighbor has a recorded
position; the previous position only for a present-but-empty neighbor
list (dead code, as adjacency entries are nonempty by construction). -/
def barycenter (adjGet : Nat → Option (List Nat))
    (positions : List (Nat × ℚ)) (node : Nat) : ℚ :=
  match adjGet node with
  | none => 0
  | some neighbors =>
    if neighbors.isEmpty then (qlookup positions node).getD 0
    else
      let sum := (neighbors.filterMap (fun n => qlookup positions n)).sum
      let count := (neighbors.filter
        (fun n => (qlookup positions n).isSome)).length
      if 0 < count then sum / count else 0

/-- Stable insertion of `x` after every element whose key is `≤` its
own.  A stable sort's output is determined by the comparator alone, so
this models Rust's stable `sort_by`. -/
def insertLE (key : Nat → ℚ) (x : Nat) : List Nat → List Nat
  | [] => [x]
  | y :: rest => if key y ≤ key x then y :: insertLE key x rest
    else x :: y :: rest

/-- Stable sort by a rational key, modelling
`layer.sort_by(|a, b| avg_a.partial_cmp(&avg_b).unwrap_or(Equal))`
(the keys are averages of position indices, hence never NaN). -/
def sortByKey (key : Nat → ℚ) (l : List Nat) : List Nat :=
  l.foldl (fun acc x => insertLE key x acc) []

/-- `pos_in_layer` rebuilt at the start of each pass: for every layer,
for every `(i, id)`, insert `id ↦ i`. -/
def posMapOfLayers (layers : List (List Nat)) : List (Nat × ℚ) :=
  layers.foldl
    (fun m layer =>
      layer.enum.foldl (fun m' p => qinsert m' p.2 (p.1 : ℚ)) m) []

/-- One pass over the layers: sort each layer by barycenter against the
current position map, then re-index that layer's positions before
moving to the next layer. -/
def sortLayersOnce (adjGet : Nat → Option (List Nat)) :
    List (Nat × ℚ) → List (List Nat) → List (Nat × ℚ) × List (List Nat)
  | pos, [] => (pos, [])
  | pos, layer :: rest =>
    let sorted := sortByKey (barycenter adjGet pos) layer
    let pos' := sorted.enum.foldl (fun m p => qinsert m p.2 (p.1 : ℚ)) pos
    let res := sortLayersOnce adjGet pos' rest
    (res.1, sorted :: res.2)

/-- One `for _iteration in 0..3` pass of `minimize_crossings`. -/
def minimizePass (adjGet : Nat → Option (List Nat))
    (layers : List (List Nat)) : List (List Nat) :=
  (sortLayersOnce adjGet (posMapOfLayers layers) layers).2

/-- `GraphLayout::minimize_crossings`: exactly three barycenter
passes. -/
def minimizeCrossings (g : RelayGraph) (layers : List (List Nat)) :
    List (List Nat) :=
  minimizePass (undirAdjGet g)
    (minimizePass (undirAdjGet g) (minimizePass (undirAdjGet g) layers))

/-! ## Coordinate assignment (`GraphLayout::assign_coordinates`) -/

/-- Update the first node satisfying the predicate (Rust
`iter_mut().find(...)`); no match leaves the list unchanged. -/
def updateFirst (p : GraphNode → Bool) (f : GraphNode → GraphNode) :
    List GraphNode → List GraphNode
  | [] => []
  | n :: rest => if p n then f n :: rest else n :: updateFirst p f rest

/-- `find_node_mut(id)` followed by writing `x`/`y`; a dangling id (no
node) is skipped. -/
def setNodeXY (id : Nat) (x y : ℝ) (nodes : List GraphNode) :
    List GraphNode :=
  updateFirst (fun n => n.id == id) (fun n => { n with x := x, y := y }) nodes

/-- `GraphLayout::assign_coordinates`: layers to x, in-layer index to y
(stacked around 0). -/
noncomputable def assignCoordinates (layers : List (List Nat)) (g : RelayGraph) :
    RelayGraph :=
  let newNodes :=
    layers.enum.foldl
      (fun acc li_layer =>
        let gapX := NODE_COLLAPSED_W + LAYOUT_NODE_GAP_X
        let gapY := NODE_COLLAPSED_H + LAYOUT_NODE_GAP_Y
        let totalH := (li_layer.2.length : ℝ) * gapY
        let startY := -totalH / 2
        li_layer.2.enum.foldl
          (fun acc' p =>
            setNodeXY p.2 ((li_layer.1 : ℝ) * gapX)
              (startY + (p.1 : ℝ) * gapY) acc')
          acc)
      g.nodes
  { g with nodes := newNodes }

/-- `GraphLayout::layout_sugiyama`: layer assignment (fuel-modelled, so
`Option`), crossing minimization, coordinate assignment. -/
noncomputable def layoutSugiyama (g : RelayGraph) : Option RelayGraph :=
  if g.nodes.isEmpty then some g
  else
    (assignLayers g).map
      (fun layers => assignCoordinates (minimizeCrossings g layers) g)

/-! ## Force-directed layout (`GraphLayout::layout_force_directed`)

`f64` vectors are modelled over `ℝ`. -/

/-- `Vec2` from `src/core/types.rs`. -/
structure Vec2 where
  x : ℝ
  y : ℝ

/-- The zero vector (`Vec2::default`). -/
def vzero : Vec2 := ⟨0, 0⟩

/-- Componentwise sum. -/
def vadd (a b : Vec2) : Vec2 := ⟨a.x + b.x, a.y + b.y⟩

/-- Componentwise difference. -/
def vsub (a b : Vec2) : Vec2 := ⟨a.x - b.x, a.y - b.y⟩

/-- Scalar multiple. -/
def vscale (s : ℝ) (a : Vec2) : Vec2 := ⟨a.x * s, a.y * s⟩

/-- `Vec2::length`. -/
noncomputable def vlength (a : Vec2) : ℝ := Real.sqrt (a.x * a.x + a.y * a.y)

/-- `Vec2::normalized` (zero below the `1e-10` cutoff). -/
noncomputable def vnormalized (a : Vec2) : Vec2 :=
  if vlength a < 1 / 10 ^ 10 then vzero
  else ⟨a.x / vlength a, a.y / vlength a⟩

/-- Circle initialization of `layout_force_directed`: node `i` of `n`
is placed at angle `2πi/n` on a circle of radius `50n`. -/
noncomputable def initCircle (nodes : List GraphNode) : List GraphNode :=
  nodes.enum.map
    (fun p =>
      let angle : ℝ := 2 * Real.pi * (p.1 : ℝ) / (nodes.length : ℝ)
      { p.2 with x := (nodes.length : ℝ) * 50 * Real.cos angle,
                 y := (nodes.length : ℝ) * 50 * Real.sin angle })

/-- The `edge_pairs` of `layout_force_directed`: indices of both
endpoints, dropping edges with an unresolvable endpoint. -/
def edgePairsOf (nodes : List GraphNode) (edges : List GraphEdge) :
    List (Nat × Nat) :=
  edges.filterMap
    (fun e =>
      match nodes.findIdx? (fun n => n.id == e.source_id),
            nodes.findIdx? (fun n => n.id == e.target_id) with
      | some si, some ti => some (si, ti)
      | _, _ => none)

/-- All index pairs `i < j < n`, in the order of the nested repulsion
loops. -/
def repPairs (n : Nat) : List (Nat × Nat) :=
  (List.range n).flatMap (fun i => ((List.range n).drop (i + 1)).map (i, ·))

/-- One repulsion update: `k_rep / dist²` along the normalized
difference, added to `i`'s velocity and subtracted from `j`'s. -/
noncomputable def applyRep (krep : ℝ) (positions : List Vec2)
    (vel : List Vec2) (p : Nat × Nat) : List Vec2 :=
  let pi := positions.getD p.1 vzero
  let pj := positions.getD p.2 vzero
  let delta := vsub pi pj
  let dist := max (vlength delta) 1
  let force := vscale (krep / (dist * dist)) (vnormalized delta)
  let vel' := vel.set p.1 (vadd (vel.getD p.1 vzero) force)
  vel'.set p.2 (vsub (vel'.getD p.2 vzero) force)

/-- One attraction update along an edge: `k_att · dist` pulling the
endpoints together. -/
noncomputable def applyAtt (katt : ℝ) (positions : List Vec2)
    (vel : List Vec2) (p : Nat × Nat) : List Vec2 :=
  let ps := positions.getD p.1 vzero
  let pt := positions.getD p.2 vzero
  let delta := vsub pt ps
  let dist := vlength delta
  let force := vscale (katt * dist) (vnormalized delta)
  let vel' := vel.set p.1 (vadd (vel.getD p.1 vzero) force)
  vel'.set p.2 (vsub (vel'.getD p.2 vzero) force)

/-- One iteration of the force loop: pairwise repulsion, attraction
along edges, damping, integration. -/
noncomputable def forceStep (pairs : List (Nat × Nat)) (state : List GraphNode × List Vec2) :
    List GraphNode × List Vec2 :=
  let nodes := state.1
  let vel := state.2
  let positions := nodes.map (fun nd => Vec2.mk nd.x nd.y)
  let vel1 := (repPairs nodes.length).foldl (applyRep 5000 positions) vel
  let vel2 := pairs.foldl (applyAtt (1 / 100) positions) vel1
  let vel3 := vel2.map (vscale (95 / 100))
  let nodes' := (nodes.zip vel3).map
    (fun p => { p.1 with x := p.1.x + p.2.x, y := p.1.y + p.2.y })
  (nodes', vel3)

/-- `for _ in 0..iterations`. -/
def forceLoop {σ : Type} (step : σ → σ) : Nat → σ → σ
  | 0, s => s
  | k + 1, s => forceLoop step k (step s)

/-- `GraphLayout::layout_force_directed`. -/
noncomputable def layoutForceDirected (g : RelayGraph) (iterations : Nat) :
    RelayGraph :=
  if g.nodes.length ≤ 1 then g
  else
    let nodes0 := initCircle g.nodes
    let pairs := edgePairsOf nodes0 g.edges
    let final := forceLoop (forceStep pairs) iterations
      (nodes0, List.replicate nodes0.length vzero)
    { g with nodes := final.1 }

/-- `GraphLayout::auto_layout`.  The `getD g` fallback is dead code:
when `has_cycle` is `false` the sugiyama fuel is proved sufficient. -/
noncomputable def autoLayout (g : RelayGraph) : RelayGraph :=
  if g.nodes.isEmpty then g
  else if hasCycle g then layoutForceDirected g 100
  else (layoutSugiyama g).getD g

/-- Projection of a node to everything except its coordinates; the
layout engines are proved to preserve it. -/
def eraseXY (n : GraphNode) : GraphNode := { n with x := 0, y := 0 }

/-! ## Graph builder (`Orchestrator::build_graph_from_error` /
`AstAnalyzer::analyze_error_location`)

The libclang outputs are not computable from the repository's own code:
the cursor resolved for an error location (`clang_getCursorReferenced`)
and the cursors collected by `visit_children_callback` come from the
C/C++ AST.  They are modelled as inputs: per error, an optional direct
reference and a list of child-reference candidates.  Everything the
Rust code does with them — filtering, dedup via the `seen` map, id
allocation, node/edge creation — is modelled from the source. -/

/-- `ErrorInfo` from `src/core/types.rs`. -/
structure ErrorInfo where
  file_path : String
  line : Nat
  column : Nat
  error_code : String
  message : String

/-- `SymbolRef` from `src/analysis/ast_analyzer.rs`. -/
structure SymbolRef where
  file : String
  line : Nat
  column : Nat
  name : String
  node_type : NodeType
  edge_type : EdgeType

/-- The filter of `visit_children_callback` applied to collected
candidates: keep positions with a line, outside `/usr/`, with a
nonempty name (a cursor whose file handle is null never yields a
candidate, so it is modelled as absent from the list).  Note the filter
performs no comparison against the error's own location
(`VisitorContext.origin_file` is never read). -/
def collectChildRefs (candidates : List SymbolRef) : List SymbolRef :=
  candidates.filter
    (fun r => 0 < r.line ∧ ¬ r.file.startsWith "/usr/" ∧ r.name ≠ "")

/-- The dedup key `(file_path, line)` of a node. -/
def skey (n : GraphNode) : String × Nat := (n.file_path, n.line)

/-- Association-list lookup for the `seen` map. -/
def slookup : List ((String × Nat) × Nat) → String × Nat → Option Nat
  | [], _ => none
  | (k, v) :: rest, k' => if k = k' then some v else slookup rest k'

/-- Association-list insert-or-update for the `seen` map. -/
def sinsert : List ((String × Nat) × Nat) → String × Nat → Nat →
    List ((String × Nat) × Nat)
  | [], k, v => [(k, v)]
  | (k₀, v₀) :: rest, k, v =>
    if k₀ = k then (k₀, v) :: rest else (k₀, v₀) :: sinsert rest k v

/-- `// Register existing nodes to avoid duplicates`: last node with a
given key wins. -/
def buildSeen (nodes : List GraphNode) : List ((String × Nat) × Nat) :=
  nodes.foldl (fun m n => sinsert m (skey n) n.id) []

/-- A node created for a discovered reference (`GraphNode::new` with
file/line/column filled in; `is_error` stays `false`). -/
def mkRefNode (id : Nat) (r : SymbolRef) : GraphNode :=
  { GraphNode.new id r.name r.node_type with
      file_path := r.file, line := r.line, column := r.column }

/-- The `for sym_ref in &ctx.refs` loop of `analyze_error_location`:
dedup via `seen`, both-direction duplicate-edge check, fresh node plus
edge otherwise. -/
def processChildRefs (errorNodeId : Nat) :
    List SymbolRef → Nat → RelayGraph → List ((String × Nat) × Nat) →
    Nat × RelayGraph
  | [], nextId, g, _ => (nextId, g)
  | r :: rest, nextId, g, seen =>
    match slookup seen (r.file, r.line) with
    | some existingId =>
      let connected := g.edges.any
        (fun e =>
          (e.source_id == errorNodeId && e.target_id == existingId) ||
          (e.source_id == existingId && e.target_id == errorNodeId))
      let g' := if connected then g
        else { g with edges := g.edges ++
          [{ source_id := errorNodeId, target_id := existingId,
             edge_type := r.edge_type, on_error_path := false }] }
      processChildRefs errorNodeId rest nextId g' seen
    | none =>
      let g' : RelayGraph :=
        { nodes := g.nodes ++ [mkRefNode nextId r],
          edges := g.edges ++
            [{ source_id := errorNodeId, target_id := nextId,
               edge_type := r.edge_type, on_error_path := false }] }
      processChildRefs errorNodeId rest (nextId + 1) g'
        (sinsert seen (r.file, r.line) nextId)

/-- The direct referenced-symbol step of `analyze_error_location`: if
the resolved symbol is at a different `(file, line)` than the error, a
fresh node (no dedup) plus an `on_error_path` edge; otherwise nothing. -/
def directStep (err : ErrorInfo) (errorNodeId : Nat)
    (directRef : Option SymbolRef) (nextId : Nat) (g : RelayGraph) :
    Nat × RelayGraph :=
  match directRef with
  | none => (nextId, g)
  | some r =>
    if r.file ≠ err.file_path ∨ r.line ≠ err.line then
      (nextId + 1,
        { nodes := g.nodes ++ [mkRefNode nextId r],
          edges := g.edges ++
            [{ source_id := errorNodeId, target_id := nextId,
               edge_type := r.edge_type, on_error_path := true }] })
    else (nextId, g)

/-- `AstAnalyzer::analyze_error_location`, with the libclang outputs as
inputs: the direct referenced symbol at the cursor (already `None` when
the file is missing, the TU fails to parse, the cursor is null, or
`cursor_to_symbol_ref` fails) and the raw candidates seen by the child
visitor.  The direct step suppresses only exact (file, line) matches of
the error and appends an undeduplicated fresh node otherwise; the child
loop dedups against all current nodes. -/
def analyzeErrorLocation (err : ErrorInfo) (errorNodeId : Nat)
    (directRef : Option SymbolRef) (childCandidates : List SymbolRef)
    (nextId : Nat) (g : RelayGraph) : Nat × RelayGraph :=
  let afterDirect := directStep err errorNodeId directRef nextId g
  processChildRefs errorNodeId (collectChildRefs childCandidates)
    afterDirect.1 afterDirect.2 (buildSeen afterDirect.2.nodes)

/-- The error node created in phase 1 of `build_graph_from_error`. -/
def mkErrorNode (id : Nat) (err : ErrorInfo) : GraphNode :=
  { GraphNode.new id err.message NodeType.ErrorSource with
      file_path := err.file_path, line := err.line, column := err.column,
      is_error := true }

/-- One batch of errors with their libclang oracles. -/
structure ErrorBatch where
  items : List (ErrorInfo × Option SymbolRef × List SymbolRef)

/-- `Orchestrator::build_graph_from_error` on a fresh orchestrator
(`next_id = 0`): phase 1 creates the error nodes with ids `0, 1, …`;
then `set_next_id_start(next_id + 1000)` and one
`analyze_error_location` per error. -/
def buildGraphFromErrors (batch : ErrorBatch) : RelayGraph :=
  let n := batch.items.length
  let g0 : RelayGraph :=
    { nodes := batch.items.enum.map (fun p => mkErrorNode p.1 p.2.1),
      edges := [] }
  (batch.items.enum.foldl
    (fun st p =>
      analyzeErrorLocation p.2.1 p.1 p.2.2.1 p.2.2.2 st.1 st.2)
    (n + 1000, g0)).2

/-- Unordered equality of edge endpoint pairs. -/
def edgePairEq (e₁ e₂ : GraphEdge) : Prop :=
  (e₁.source_id = e₂.source_id ∧ e₁.target_id = e₂.target_id) ∨
  (e₁.source_id = e₂.target_id ∧ e₁.target_id = e₂.source_id)

/-- No two edges of the graph share an unordered endpoint pair. -/
def NoDupEdgePairs (g : RelayGraph) : Prop :=
  g.edges.Pairwise (fun e₁ e₂ => ¬ edgePairEq e₁ e₂)

/-- C3's claimed dedup property: any two nodes with the same
`(file_path, line)` key include an `ErrorSource` node. -/
def C3ClaimProp (g : RelayGraph) : Prop :=
  g.nodes.Pairwise
    (fun a b => skey a = skey b →
      a.node_type = NodeType.ErrorSource ∨ b.node_type = NodeType.ErrorSource)

/-- Concrete batch refuting C3: error 1's child traversal discovers
`("x.c", 7)` (new node), then error 2's direct reference resolves to
the same location — and the direct step performs no dedup. -/
def c3Batch : ErrorBatch :=
  { items :=
      [(⟨"e1.c", 1, 1, "", "err1"⟩, none,
        [⟨"x.c", 7, 1, "x", NodeType.Function, EdgeType.Call⟩]),
       (⟨"e2.c", 2, 1, "", "err2"⟩,
        some ⟨"x.c", 7, 1, "x", NodeType.Function, EdgeType.Call⟩, [])] }

/-- Concrete batch for C4: a child reference resolving to the error's
own `(file, line)`. -/
def c4Batch : ErrorBatch :=
  { items :=
      [(⟨"e.c", 1, 1, "", "err"⟩, none,
        [⟨"e.c", 1, 5, "x", NodeType.Variable, EdgeType.Reference⟩])] }

/-! ### Fuel sufficiency for the DFS -/

section DFSLemmas

variable {adj : Nat → List Nat} {U : List Nat}

lemma length_le_of_nodup_subset {l₁ l₂ : List Nat} (h₁ : l₁.Nodup)
    (h₂ : l₁ ⊆ l₂) : l₁.length ≤ l₂.length :=
  (h₁.subperm h₂).length_le

/-- Fuel sufficiency for the neighbor loop, parameterized by sufficiency
of the visit function. -/
lemma dfsFold_total
    {visit : Nat → List Nat → Option (List Nat × Bool)} {f : Nat}
    (hvisit : ∀ v vis, v ∉ vis → v ∈ U → vis ⊆ U → vis.Nodup →
      U.length + 1 ≤ f + vis.length →
      ∃ vis' b, visit v vis = some (vis', b) ∧ vis ⊆ vis' ∧
        vis'.Nodup ∧ vis' ⊆ U)
    (rec : List Nat) :
    ∀ ns vis, (∀ v ∈ ns, v ∈ U) → vis ⊆ U → vis.Nodup →
      U.length + 1 ≤ f + vis.length →
      ∃ vis' b, dfsFold visit rec ns vis = some (vis', b) ∧ vis ⊆ vis' ∧
        vis'.Nodup ∧ vis' ⊆ U := by
  intro ns
  induction ns with
  | nil =>
    intro vis _ hsub hnd _
    exact ⟨vis, false, rfl, fun _ h => h, hnd, hsub⟩
  | cons v rest ih =>
    intro vis hns hsub hnd hfuel
    by_cases hv : v ∈ vis
    · simp only [dfsFold, if_pos hv]
      by_cases hr : v ∈ rec
      · exact ⟨vis, true, by simp [hr], fun _ h => h, hnd, hsub⟩
      · simp only [if_neg hr]
        exact ih vis (fun w hw => hns w (List.mem_cons_of_mem _ hw)) hsub hnd hfuel
    · simp only [dfsFold, if_neg hv]
      obtain ⟨vis', b, heq, hsub', hnd', hU'⟩ :=
        hvisit v vis hv (hns v (List.mem_cons_self _ _)) hsub hnd hfuel
      rw [heq]
      cases b with
      | true => exact ⟨vis', true, rfl, hsub', hnd', hU'⟩
      | false =>
        obtain ⟨vis'', b', heq', hsub'', hnd'', hU''⟩ :=
          ih vis' (fun w hw => hns w (List.mem_cons_of_mem _ hw)) hU' hnd'
            (le_trans hfuel (by
              have := length_le_of_nodup_subset hnd hsub'
              omega))
        exact ⟨vis'', b', heq', fun x hx => hsub'' (hsub' hx), hnd'', hU''⟩

/-- Fuel sufficiency for `dfsVisit`: with fuel at least
`|U| + 1 - |visited|` the DFS never runs out, and the visited set stays a
nodup subset of `U` that only grows. -/
lemma dfsVisit_total (hadjU : ∀ a b, b ∈ adj a → b ∈ U) :
    ∀ (f : Nat) (u : Nat) (rec vis : List Nat), u ∉ vis → u ∈ U →
      vis ⊆ U → vis.Nodup → U.length + 1 ≤ f + vis.length →
      ∃ vis' b, dfsVisit adj f u rec vis = some (vis', b) ∧ vis ⊆ vis' ∧
        vis'.Nodup ∧ vis' ⊆ U ∧ u ∈ vis' := by
  intro f
  induction f with
  | zero =>
    intro u rec vis hu huU hsub hnd hfuel
    exact absurd hfuel (by
      have := length_le_of_nodup_subset hnd hsub
      omega)
  | succ f ih =>
    intro u rec vis hu huU hsub hnd hfuel
    have hsub' : (u :: vis) ⊆ U := by
      intro x hx
      rcases List.mem_cons.mp hx with h | h
      · exact h ▸ huU
      · exact hsub h
    have hnd' : (u :: vis).Nodup := List.nodup_cons.mpr ⟨hu, hnd⟩
    obtain ⟨vis', b, heq, hs, hn, hUsub⟩ :=
      dfsFold_total
        (fun v vis₂ hv hvU hsub₂ hnd₂ hfuel₂ => by
          obtain ⟨vis₃, b, h1, h2, h3, h4, _⟩ :=
            ih v (u :: rec) vis₂ hv hvU hsub₂ hnd₂ hfuel₂
          exact ⟨vis₃, b, h1, h2, h3, h4⟩)
        (u :: rec) (adj u) (u :: vis) (fun v hv => hadjU u v hv) hsub' hnd'
        (by simp only [List.length_cons]; omega)
    refine ⟨vis', b, ?_, fun x hx => hs (List.mem_cons_of_mem _ hx), hn,
      hUsub, hs (List.mem_cons_self _ _)⟩
    exact heq

/-- Fuel sufficiency for the outer root loop of `has_cycle`. -/
lemma hasCycleRoots_total (hadjU : ∀ a b, b ∈ adj a → b ∈ U) :
    ∀ (roots vis : List Nat), roots ⊆ U → vis ⊆ U → vis.Nodup →
      ∃ b, hasCycleRoots adj (U.length + 1) roots vis = some b := by
  intro roots
  induction roots with
  | nil => intro vis _ _ _; exact ⟨false, rfl⟩
  | cons r rest ih =>
    intro vis hroots hsub hnd
    by_cases hr : r ∈ vis
    · simp only [hasCycleRoots, if_pos hr]
      exact ih vis (fun x hx => hroots (List.mem_cons_of_mem _ hx)) hsub hnd
    · obtain ⟨vis', b, heq, _, hnd', hU', _⟩ :=
        dfsVisit_total hadjU (U.length + 1) r [] vis hr
          (hroots (List.mem_cons_self _ _)) hsub hnd (by omega)
      simp only [hasCycleRoots, if_neg hr, heq]
      cases b with
      | true => exact ⟨true, rfl⟩
      | false => exact ih vis' (fun x hx => hroots (List.mem_cons_of_mem _ hx)) hU' hnd'

end DFSLemmas

/-- Every edge target is in `idsOf`. -/
lemma adjOf_mem_idsOf (g : RelayGraph) : ∀ a b, b ∈ adjOf g a → b ∈ idsOf g := by
  intro a b hb
  simp only [adjOf, List.mem_map, List.mem_filter] at hb
  obtain ⟨e, ⟨he, _⟩, rfl⟩ := hb
  simp only [idsOf, List.mem_dedup, List.mem_append, List.mem_map]
  exact Or.inr ⟨e, he, rfl⟩

lemma nodeIds_subset_idsOf (g : RelayGraph) : nodeIds g ⊆ idsOf g := by
  intro x hx
  simp only [idsOf, List.mem_dedup, List.mem_append]
  exact Or.inl (Or.inl hx)

/-- The DFS run inside `hasCycle` never runs out of fuel: `hasCycle`
faithfully reports the boolean the Rust loop computes. -/
lemma hasCycle_run_eq (g : RelayGraph) :
    hasCycleRoots (adjOf g) (hasCycleFuel g) (nodeIds g) [] =
      some (hasCycle g) := by
  obtain ⟨b, hb⟩ :=
    hasCycleRoots_total (adjOf_mem_idsOf g) (nodeIds g) []
      (nodeIds_subset_idsOf g) (by simp) List.nodup_nil
  rw [hasCycle, hasCycleFuel] at *
  rw [hb]
  rfl

/-! ### Soundness of the DFS: `true` implies a reachable cycle -/

section DFSSound

variable {adj : Nat → List Nat}

lemma ChainUp.reach_head {h : Nat} {t : List Nat} (hc : ChainUp adj (h :: t)) :
    ∀ v ∈ h :: t, AReach adj v h := by
  induction t generalizing h with
  | nil =>
    intro v hv
    rcases List.mem_singleton.mp hv with rfl
    exact Relation.ReflTransGen.refl
  | cons p t' ih =>
    intro v hv
    rw [ChainUp, List.chain'_cons] at hc
    rcases List.mem_cons.mp hv with rfl | hv'
    · exact Relation.ReflTransGen.refl
    · exact Relation.ReflTransGen.tail (ih hc.2 v hv') hc.1

lemma cycleFrom_of_step {u v : Nat} (hs : AStep adj u v)
    (hc : ACycleFrom adj v) : ACycleFrom adj u := by
  obtain ⟨w, x, hvw, hwx, hxw⟩ := hc
  exact ⟨w, x, Relation.ReflTransGen.head hs hvw, hwx, hxw⟩

lemma dfsFold_sound
    {visit : Nat → List Nat → Option (List Nat × Bool)} {h : Nat}
    {t : List Nat}
    (hchain : ChainUp adj (h :: t))
    (hvisit : ∀ v vis vis', AStep adj h v →
      visit v vis = some (vis', true) → ACycleFrom adj v) :
    ∀ ns vis vis', (∀ v ∈ ns, AStep adj h v) →
      dfsFold visit (h :: t) ns vis = some (vis', true) →
      ACycleFrom adj h := by
  intro ns
  induction ns with
  | nil => intro vis vis' _ heq; simp [dfsFold] at heq
  | cons v rest ih =>
    intro vis vis' hns heq
    have hsv : AStep adj h v := hns v (List.mem_cons_self _ _)
    by_cases hv : v ∈ vis
    · rw [dfsFold, if_pos hv] at heq
      by_cases hr : v ∈ h :: t
      · exact ⟨h, v, Relation.ReflTransGen.refl, hsv, hchain.reach_head v hr⟩
      · rw [if_neg hr] at heq
        exact ih vis vis' (fun w hw => hns w (List.mem_cons_of_mem _ hw)) heq
    · rw [dfsFold, if_neg hv] at heq
      cases hvv : visit v vis with
      | none => rw [hvv] at heq; exact absurd heq (by simp)
      | some p =>
        obtain ⟨vis₂, b⟩ := p
        rw [hvv] at heq
        cases b with
        | true => exact cycleFrom_of_step hsv (hvisit v vis vis₂ hsv hvv)
        | false =>
          exact ih vis₂ vis' (fun w hw => hns w (List.mem_cons_of_mem _ hw)) heq

/-- If `dfs_cycle` returns `true` from `u` with a valid recursion chain,
a cycle is reachable from `u`. -/
lemma dfsVisit_sound :
    ∀ (f : Nat) (u : Nat) (rec vis vis' : List Nat),
      ChainUp adj (u :: rec) →
      dfsVisit adj f u rec vis = some (vis', true) →
      ACycleFrom adj u := by
  intro f
  induction f with
  | zero => intro u rec vis vis' _ heq; exact absurd heq (by simp [dfsVisit])
  | succ f ih =>
    intro u rec vis vis' hchain heq
    exact dfsFold_sound hchain
      (fun v vis₂ vis₃ hsv hv =>
        ih v (u :: rec) vis₂ vis₃
          (by rw [ChainUp, List.chain'_cons]; exact ⟨hsv, hchain⟩) hv)
      (adj u) (u :: vis) vis' (fun v hv => hv) heq

/-- If the root loop returns `true`, a cycle is reachable from a root. -/
lemma hasCycleRoots_sound {fuel : Nat} :
    ∀ (roots vis : List Nat),
      hasCycleRoots adj fuel roots vis = some true →
      ∃ r ∈ roots, ACycleFrom adj r := by
  intro roots
  induction roots with
  | nil => intro vis heq; simp [hasCycleRoots] at heq
  | cons r rest ih =>
    intro vis heq
    by_cases hr : r ∈ vis
    · rw [hasCycleRoots, if_pos hr] at heq
      obtain ⟨r', hr', hc⟩ := ih vis heq
      exact ⟨r', List.mem_cons_of_mem _ hr', hc⟩
    · rw [hasCycleRoots, if_neg hr] at heq
      cases hvv : dfsVisit adj fuel r [] vis with
      | none => rw [hvv] at heq; exact absurd heq (by simp)
      | some p =>
        obtain ⟨vis₂, b⟩ := p
        rw [hvv] at heq
        cases b with
        | true =>
          exact ⟨r, List.mem_cons_self _ _,
            dfsVisit_sound fuel r [] vis vis₂ (by simp [ChainUp]) hvv⟩
        | false =>
          obtain ⟨r', hr', hc⟩ := ih vis₂ heq
          exact ⟨r', List.mem_cons_of_mem _ hr', hc⟩

end DFSSound

/-! ### Completeness of the DFS: `false` implies no reachable cycle -/

section DFSComplete

variable {adj : Nat → List Nat}

/-- A node none of whose successors reaches a cycle reaches no cycle. -/
lemma no_cycleFrom_of_succs {u : Nat}
    (h : ∀ v ∈ adj u, ¬ ACycleFrom adj v) : ¬ ACycleFrom adj u := by
  rintro ⟨w, x, huw, hwx, hxw⟩
  rcases Relation.ReflTransGen.cases_head huw with rfl | ⟨v, huv, hvw⟩
  · exact h x hwx ⟨u, x, hxw, hwx, hxw⟩
  · exact h v huv ⟨w, x, hvw, hwx, hxw⟩

lemma dfsFold_complete
    {visit : Nat → List Nat → Option (List Nat × Bool)} {rec : List Nat}
    (hvisit : ∀ v vis vis', v ∉ vis → rec ⊆ vis → BlackOK adj vis rec →
      visit v vis = some (vis', false) →
      BlackOK adj vis' rec ∧ vis ⊆ vis' ∧ v ∈ vis') :
    ∀ ns vis vis', BlackOK adj vis rec → rec ⊆ vis →
      dfsFold visit rec ns vis = some (vis', false) →
      BlackOK adj vis' rec ∧ vis ⊆ vis' ∧
        ∀ v ∈ ns, ¬ ACycleFrom adj v := by
  intro ns
  induction ns with
  | nil =>
    intro vis vis' hblack hrec heq
    rw [dfsFold] at heq
    obtain ⟨rfl, -⟩ := Prod.mk.injEq .. ▸ Option.some.injEq .. ▸ heq
    exact ⟨hblack, fun _ h => h, by simp⟩
  | cons v rest ih =>
    intro vis vis' hblack hrec heq
    by_cases hv : v ∈ vis
    · rw [dfsFold, if_pos hv] at heq
      by_cases hr : v ∈ rec
      · rw [if_pos hr] at heq; exact absurd heq (by simp)
      · rw [if_neg hr] at heq
        obtain ⟨h1, h2, h3⟩ := ih vis vis' hblack hrec heq
        refine ⟨h1, h2, fun w hw => ?_⟩
        rcases List.mem_cons.mp hw with rfl | hw'
        · exact hblack w hv hr
        · exact h3 w hw'
    · rw [dfsFold, if_neg hv] at heq
      cases hvv : visit v vis with
      | none => rw [hvv] at heq; exact absurd heq (by simp)
      | some p =>
        obtain ⟨vis₂, b⟩ := p
        rw [hvv] at heq
        cases b with
        | true => exact absurd heq (by simp)
        | false =>
          obtain ⟨hb₂, hs₂, hv₂⟩ := hvisit v vis vis₂ hv hrec hblack hvv
          have hvrec : v ∉ rec := fun h => hv (hrec h)
          obtain ⟨h1, h2, h3⟩ :=
            ih vis₂ vis' hb₂ (fun x hx => hs₂ (hrec hx)) heq
          refine ⟨h1, fun x hx => h2 (hs₂ hx), fun w hw => ?_⟩
          rcases List.mem_cons.mp hw with rfl | hw'
          · exact hb₂ w hv₂ hvrec
          · exact h3 w hw'

/-- If `dfs_cycle` returns `false` from `u`, then `u` (and everything
newly blackened) reaches no cycle. -/
lemma dfsVisit_complete :
    ∀ (f : Nat) (u : Nat) (rec vis vis' : List Nat), u ∉ vis → rec ⊆ vis →
      BlackOK adj vis rec →
      dfsVisit adj f u rec vis = some (vis', false) →
      BlackOK adj vis' rec ∧ vis ⊆ vis' ∧ u ∈ vis' := by
  intro f
  induction f with
  | zero => intro u rec vis vis' _ _ _ heq; exact absurd heq (by simp [dfsVisit])
  | succ f ih =>
    intro u rec vis vis' hu hrec hblack heq
    have hblack' : BlackOK adj (u :: vis) (u :: rec) := by
      intro b hb hbr
      rcases List.mem_cons.mp hb with rfl | hb'
      · exact absurd (List.mem_cons_self _ _) hbr
      · exact hblack b hb' (fun h => hbr (List.mem_cons_of_mem _ h))
    have hrec' : (u :: rec) ⊆ (u :: vis) := by
      intro x hx
      rcases List.mem_cons.mp hx with rfl | hx'
      · exact List.mem_cons_self _ _
      · exact List.mem_cons_of_mem _ (hrec hx')
    obtain ⟨h1, h2, h3⟩ :=
      dfsFold_complete
        (fun v vis₂ vis₃ hv hrec₂ hblack₂ hvv =>
          (ih v (u :: rec) vis₂ vis₃ hv hrec₂ hblack₂ hvv).imp id
            (fun h => ⟨h.1, h.2⟩))
        (adj u) (u :: vis) vis' hblack' hrec' heq
    have hucyc : ¬ ACycleFrom adj u := no_cycleFrom_of_succs h3
    refine ⟨?_, fun x hx => h2 (List.mem_cons_of_mem _ hx),
      h2 (List.mem_cons_self _ _)⟩
    intro b hb hbr
    by_cases hbu : b = u
    · exact hbu ▸ hucyc
    · exact h1 b hb (by
        intro h
        rcases List.mem_cons.mp h with h' | h'
        · exact hbu h'
        · exact hbr h')

/-- If the root loop returns `false`, no root reaches a cycle. -/
lemma hasCycleRoots_complete {fuel : Nat} :
    ∀ (roots vis : List Nat), BlackOK adj vis [] →
      hasCycleRoots adj fuel roots vis = some false →
      ∀ r ∈ roots, ¬ ACycleFrom adj r := by
  intro roots
  induction roots with
  | nil => intro vis _ _ r hr; exact absurd hr (by simp)
  | cons r rest ih =>
    intro vis hblack heq r' hr'
    by_cases hr : r ∈ vis
    · rw [hasCycleRoots, if_pos hr] at heq
      rcases List.mem_cons.mp hr' with rfl | h'
      · exact hblack r' hr (by simp)
      · exact ih vis hblack heq r' h'
    · rw [hasCycleRoots, if_neg hr] at heq
      cases hvv : dfsVisit adj fuel r [] vis with
      | none => rw [hvv] at heq; exact absurd heq (by simp)
      | some p =>
        obtain ⟨vis₂, b⟩ := p
        rw [hvv] at heq
        cases b with
        | true => exact absurd heq (by simp)
        | false =>
          obtain ⟨h1, h2, h3⟩ :=
            dfsVisit_complete fuel r [] vis vis₂ hr (by simp) hblack hvv
          rcases List.mem_cons.mp hr' with rfl | h'
          · exact h1 r' h3 (by simp)
          · exact ih vis₂ h1 heq r' h'

end DFSComplete

/-- Characterization of `has_cycle`: it returns `true` exactly when a
directed cycle is reachable from the id of some node of the graph. -/
lemma hasCycle_iff_hasCycleVia (g : RelayGraph) :
    hasCycle g = true ↔ HasCycleVia g := by
  constructor
  · intro h
    have := hasCycle_run_eq g
    rw [h] at this
    exact hasCycleRoots_sound (nodeIds g) [] this
  · intro h
    by_contra hfalse
    have hf : hasCycle g = false := by
      cases hc : hasCycle g
      · rfl
      · exact absurd hc hfalse
    have := hasCycle_run_eq g
    rw [hf] at this
    obtain ⟨r, hr, hc⟩ := h
    exact hasCycleRoots_complete (nodeIds g) [] (by intro b hb; simp at hb)
      this r hr hc

/-- `has_cycle` returns `false` exactly when no node id reaches a cycle. -/
lemma hasCycle_eq_false_iff (g : RelayGraph) :
    hasCycle g = false ↔ ¬ HasCycleVia g := by
  rw [← hasCycle_iff_hasCycleVia]
  cases hasCycle g <;> simp

/-! ### Order independence of `has_cycle` -/

lemma aStep_adjOf_iff {g : RelayGraph} {a b : Nat} :
    AStep (adjOf g) a b ↔ ∃ e ∈ g.edges, e.source_id = a ∧ e.target_id = b := by
  simp only [AStep, adjOf, List.mem_map, List.mem_filter, decide_eq_true_eq]
  constructor
  · rintro ⟨e, ⟨he, hs⟩, rfl⟩
    exact ⟨e, he, hs, rfl⟩
  · rintro ⟨e, he, hs, rfl⟩
    exact ⟨e, ⟨he, hs⟩, rfl⟩

lemma acycleFrom_congr {adj₁ adj₂ : Nat → List Nat}
    (h : ∀ a b, AStep adj₁ a b ↔ AStep adj₂ a b) (v : Nat) :
    ACycleFrom adj₁ v ↔ ACycleFrom adj₂ v := by
  have reach : ∀ {x y : Nat}, AReach adj₁ x y → AReach adj₂ x y :=
    fun hxy => Relation.ReflTransGen.mono (fun a b hab => (h a b).mp hab) hxy
  have reach' : ∀ {x y : Nat}, AReach adj₂ x y → AReach adj₁ x y :=
    fun hxy => Relation.ReflTransGen.mono (fun a b hab => (h a b).mpr hab) hxy
  constructor
  · rintro ⟨w, x, h1, h2, h3⟩
    exact ⟨w, x, reach h1, (h w x).mp h2, reach h3⟩
  · rintro ⟨w, x, h1, h2, h3⟩
    exact ⟨w, x, reach' h1, (h w x).mpr h2, reach' h3⟩

/-- `HasCycleVia` only depends on the sets of nodes and edges. -/
lemma hasCycleVia_congr {g g' : RelayGraph} (hn : g.nodes.Perm g'.nodes)
    (he : g.edges.Perm g'.edges) : HasCycleVia g ↔ HasCycleVia g' := by
  have hstep : ∀ a b, AStep (adjOf g) a b ↔ AStep (adjOf g') a b := by
    intro a b
    rw [aStep_adjOf_iff, aStep_adjOf_iff]
    constructor
    · rintro ⟨e, h1, h2⟩; exact ⟨e, he.mem_iff.mp h1, h2⟩
    · rintro ⟨e, h1, h2⟩; exact ⟨e, he.mem_iff.mpr h1, h2⟩
  unfold HasCycleVia CycleFrom
  constructor
  · rintro ⟨r, hr, hc⟩
    exact ⟨r, ((hn.map GraphNode.id).mem_iff).mp hr,
      (acycleFrom_congr hstep r).mp hc⟩
  · rintro ⟨r, hr, hc⟩
    exact ⟨r, ((hn.map GraphNode.id).mem_iff).mpr hr,
      (acycleFrom_congr hstep r).mpr hc⟩

/-- `has_cycle` is order-independent: permuting nodes and edges does not
change the result. -/
lemma hasCycle_perm {g g' : RelayGraph} (hn : g.nodes.Perm g'.nodes)
    (he : g.edges.Perm g'.edges) : hasCycle g = hasCycle g' := by
  have : hasCycle g = true ↔ hasCycle g' = true := by
    rw [hasCycle_iff_hasCycleVia, hasCycle_iff_hasCycleVia]
    exact hasCycleVia_congr hn he
  cases h1 : hasCycle g <;> cases h2 : hasCycle g' <;>
    simp_all

/-! ### Claim C2 -/

/-- C2, counterexample: the claim says `has_cycle` returns `true` for
every graph whose edge relation contains a directed cycle, explicitly
including edges over ids that are not nodes.  `gDanglingCycle` has the
cycle `5 → 5` in its edge relation, yet `has_cycle` returns `false`,
because the DFS only starts from node ids and id 5 is unreachable from
node 1. -/
theorem claim_C2_counterexample :
    hasCycle gDanglingCycle = false ∧ HasCycleAnywhere gDanglingCycle := by
  constructor
  · rfl
  · refine ⟨5, 5, 5, Relation.ReflTransGen.refl, ?_, Relation.ReflTransGen.refl⟩
    show (5 : Nat) ∈ adjOf gDanglingCycle 5
    decide

/-- C2, amended: `has_cycle` returns `false` for every graph whose edge
relation is a DAG, and in general returns `true` exactly when a directed
cycle is reachable from the id of some node (a cycle lying entirely among
ids that are not nodes and are unreachable from every node id is not
detected); the result is independent of node/edge insertion order. -/
theorem claim_C2_theorem (g g' : RelayGraph) (hn : g.nodes.Perm g'.nodes)
    (he : g.edges.Perm g'.edges) :
    (¬ HasCycleAnywhere g → hasCycle g = false) ∧
    (hasCycle g = true ↔ HasCycleVia g) ∧
    hasCycle g = hasCycle g' := by
  refine ⟨?_, hasCycle_iff_hasCycleVia g, hasCycle_perm hn he⟩
  intro hdag
  rw [hasCycle_eq_false_iff]
  rintro ⟨r, _, hc⟩
  exact hdag ⟨r, hc⟩

/-! ### Association-list map lemmas -/

lemma mlookup_minsert_self (m : List (Nat × Nat)) (k v : Nat) :
    mlookup (minsert m k v) k = some v := by
  induction m with
  | nil => simp [minsert, mlookup]
  | cons p rest ih =>
    obtain ⟨k₀, v₀⟩ := p
    by_cases h : k₀ = k
    · subst h; simp [minsert, mlookup]
    · simp [minsert, mlookup, h, ih]

lemma mlookup_minsert_ne (m : List (Nat × Nat)) {k k' : Nat} (v : Nat)
    (h : k ≠ k') : mlookup (minsert m k v) k' = mlookup m k' := by
  induction m with
  | nil => simp [minsert, mlookup, h]
  | cons p rest ih =>
    obtain ⟨k₀, v₀⟩ := p
    by_cases h₀ : k₀ = k
    · subst h₀; simp [minsert, mlookup, h]
    · simp [minsert, mlookup, h₀, ih]

/-! ### Relaxation-fold lemmas -/

lemma relaxFold_q (L : Nat) :
    ∀ (ns : List Nat) (st : LState),
      ((ns.foldl (relaxOne L) st).q) = st.q ++ ns := by
  intro ns
  induction ns with
  | nil => intro st; simp
  | cons v rest ih =>
    intro st
    rw [List.foldl_cons, ih]
    simp [relaxOne]

lemma relaxFold_mono (L : Nat) :
    ∀ (ns : List Nat) (st : LState) (k V : Nat),
      mlookup st.m k = some V →
      ∃ V', mlookup ((ns.foldl (relaxOne L) st).m) k = some V' ∧ V ≤ V' := by
  intro ns
  induction ns with
  | nil => intro st k V h; exact ⟨V, h, le_refl V⟩
  | cons v rest ih =>
    intro st k V h
    rw [List.foldl_cons]
    by_cases hk : v = k
    · subst hk
      have hcur : ((mlookup st.m v).getD 0) = V := by rw [h]; rfl
      have : mlookup ((relaxOne L st v).m) v = some (max V (L + 1)) := by
        simp only [relaxOne, hcur]
        exact mlookup_minsert_self _ _ _
      obtain ⟨V', hV', hle⟩ := ih (relaxOne L st v) v (max V (L + 1)) this
      exact ⟨V', hV', le_trans (le_max_left _ _) hle⟩
    · have : mlookup ((relaxOne L st v).m) k = some V := by
        simp only [relaxOne]
        rw [mlookup_minsert_ne _ _ hk]
        exact h
      exact ih (relaxOne L st v) k V this

lemma relaxFold_isSome (L : Nat) (ns : List Nat) (st : LState) (k : Nat)
    (h : (mlookup st.m k).isSome) :
    (mlookup ((ns.foldl (relaxOne L) st).m) k).isSome := by
  obtain ⟨V, hV⟩ := Option.isSome_iff_exists.mp h
  obtain ⟨V', hV', -⟩ := relaxFold_mono L ns st k V hV
  exact Option.isSome_iff_exists.mpr ⟨V', hV'⟩

lemma relaxFold_unchanged (L : Nat) :
    ∀ (ns : List Nat) (st : LState) (k : Nat), k ∉ ns →
      mlookup ((ns.foldl (relaxOne L) st).m) k = mlookup st.m k := by
  intro ns
  induction ns with
  | nil => intro st k _; rfl
  | cons v rest ih =>
    intro st k hk
    rw [List.foldl_cons, ih _ _ (fun h => hk (List.mem_cons_of_mem _ h))]
    simp only [relaxOne]
    exact mlookup_minsert_ne _ _ (fun h => hk (h ▸ List.mem_cons_self _ _))

lemma relaxFold_rel (L : Nat) :
    ∀ (ns : List Nat) (st : LState) (v : Nat), v ∈ ns →
      ∃ Lv, mlookup ((ns.foldl (relaxOne L) st).m) v = some Lv ∧
        L + 1 ≤ Lv := by
  intro ns
  induction ns with
  | nil => intro st v hv; exact absurd hv (by simp)
  | cons w rest ih =>
    intro st v hv
    rw [List.foldl_cons]
    rcases List.mem_cons.mp hv with rfl | hv'
    · have : mlookup ((relaxOne L st v).m) v =
          some (max ((mlookup st.m v).getD 0) (L + 1)) := by
        simp only [relaxOne]
        exact mlookup_minsert_self _ _ _
      obtain ⟨V', hV', hle⟩ := relaxFold_mono L rest (relaxOne L st v) v _ this
      exact ⟨V', hV', le_trans (le_max_right _ _) hle⟩
    · exact ih (relaxOne L st w) v hv'

/-- C2, witness: the amended theorem applied to `gPair` and its
transposed variant. -/
theorem claim_C2_witness :
    gPair.nodes.Perm gPairSwapped.nodes ∧
    gPair.edges.Perm gPairSwapped.edges ∧
    ((¬ HasCycleAnywhere gPair → hasCycle gPair = false) ∧
      (hasCycle gPair = true ↔ HasCycleVia gPair) ∧
      hasCycle gPair = hasCycle gPairSwapped) :=
  ⟨List.Perm.swap _ _ _, List.Perm.refl _,
    claim_C2_theorem gPair gPairSwapped (List.Perm.swap _ _ _)
      (List.Perm.refl _)⟩

/-! ### Walk bounds and the path-count termination measure -/

section Walks

variable {adj : Nat → List Nat}

lemma pcount_pos (f v : Nat) : 1 ≤ pcount adj f v := by
  cases f <;> simp [pcount]

lemma chainWalk_mem_reach :
    ∀ {l : List Nat} {w x : Nat}, List.Chain (AStep adj) w l → x ∈ l →
      AReach adj w x := by
  intro l
  induction l with
  | nil => intro w x _ hx; exact absurd hx (by simp)
  | cons y l' ih =>
    intro w x hc hx
    rw [List.chain_cons] at hc
    rcases List.mem_cons.mp hx with rfl | hx'
    · exact Relation.ReflTransGen.single hc.1
    · exact Relation.ReflTransGen.head hc.1 (ih hc.2 hx')

lemma chainWalk_nodup {v : Nat} (hnc : ¬ ACycleFrom adj v) :
    ∀ {l : List Nat}, List.Chain (AStep adj) v l → (v :: l).Nodup := by
  suffices h : ∀ (l : List Nat) (v : Nat), ¬ ACycleFrom adj v →
      List.Chain (AStep adj) v l → (v :: l).Nodup by
    intro l hc; exact h l v hnc hc
  intro l
  induction l with
  | nil => intro v _ _; simp
  | cons w l' ih =>
    intro v hnc hc
    rw [List.chain_cons] at hc
    have hncw : ¬ ACycleFrom adj w := fun h => hnc (cycleFrom_of_step hc.1 h)
    have htail := ih w hncw hc.2
    rw [List.nodup_cons]
    refine ⟨?_, htail⟩
    intro hv
    rcases List.mem_cons.mp hv with rfl | hv'
    · exact hnc ⟨v, v, Relation.ReflTransGen.refl, hc.1,
        Relation.ReflTransGen.refl⟩
    · exact hnc ⟨v, w, Relation.ReflTransGen.refl, hc.1,
        chainWalk_mem_reach hc.2 hv'⟩

lemma chainWalk_mem_U {U : List Nat} (hadjU : ∀ a b, b ∈ adj a → b ∈ U) :
    ∀ {l : List Nat} {w x : Nat}, List.Chain (AStep adj) w l → x ∈ l →
      x ∈ U := by
  intro l
  induction l with
  | nil => intro w x _ hx; exact absurd hx (by simp)
  | cons y l' ih =>
    intro w x hc hx
    rw [List.chain_cons] at hc
    rcases List.mem_cons.mp hx with rfl | hx'
    · exact hadjU w x hc.1
    · exact ih hc.2 hx'

/-- Walks out of a cycle-free start are bounded by the id universe. -/
lemma walk_length_le {U : List Nat} (hadjU : ∀ a b, b ∈ adj a → b ∈ U)
    {v : Nat} (hnc : ¬ ACycleFrom adj v) {l : List Nat}
    (hc : List.Chain (AStep adj) v l) : l.length ≤ U.length := by
  have hnd : (v :: l).Nodup := chainWalk_nodup hnc hc
  exact length_le_of_nodup_subset (List.nodup_cons.mp hnd).2
    (fun x hx => chainWalk_mem_U hadjU hc hx)

lemma pcount_eq_one_of_nil {v : Nat} (h : adj v = []) (f : Nat) :
    pcount adj f v = 1 := by
  cases f <;> simp [pcount, h]

/-- `pcount` is stable above any walk bound. -/
lemma pcount_stable :
    ∀ (k v f : Nat),
      (∀ l, List.Chain (AStep adj) v l → l.length ≤ k) → k ≤ f →
      pcount adj f v = pcount adj k v := by
  intro k
  induction k with
  | zero =>
    intro v f hb _
    have hnil : adj v = [] := by
      rw [List.eq_nil_iff_forall_not_mem]
      intro w hw
      have := hb [w] (List.Chain.cons hw List.Chain.nil)
      simp at this
    rw [pcount_eq_one_of_nil hnil, pcount_eq_one_of_nil hnil]
  | succ k ih =>
    intro v f hb hf
    obtain ⟨f', rfl⟩ : ∃ f', f = f' + 1 := ⟨f - 1, by omega⟩
    have hmap : (adj v).map (pcount adj f') = (adj v).map (pcount adj k) := by
      apply List.map_congr_left
      intro w hw
      exact ih w f'
        (fun l hl => by
          have := hb (w :: l) (List.Chain.cons hw hl)
          simp at this; omega)
        (by omega)
    simp only [pcount, hmap]

/-- For a cycle-free node, `pcount` at universe length satisfies the
exact one-step-unfolding identity that makes the layer loop tick down. -/
lemma pcount_unfold {U : List Nat} (hadjU : ∀ a b, b ∈ adj a → b ∈ U)
    {v : Nat} (hnc : ¬ ACycleFrom adj v) :
    pcount adj U.length v = 1 + ((adj v).map (pcount adj U.length)).sum := by
  have hb : ∀ l, List.Chain (AStep adj) v l → l.length ≤ U.length :=
    fun l hl => walk_length_le hadjU hnc hl
  have h1 : pcount adj (U.length + 1) v = pcount adj U.length v :=
    pcount_stable U.length v (U.length + 1) hb (by omega)
  have h2 : pcount adj (U.length + 1) v =
      1 + ((adj v).map (pcount adj U.length)).sum := rfl
  rw [← h1, h2]

end Walks

/-! ### Termination and correctness of the propagation loop -/

/-- The propagation loop terminates with the given fuel whenever the
measure fits, never hits the map-index panic, preserves the map
monotonically, and at termination every in-map edge source has its
target recorded strictly higher. -/
lemma runLayers_spec {adj : Nat → List Nat} {U : List Nat}
    (hadjU : ∀ a b, b ∈ adj a → b ∈ U) :
    ∀ (fuel : Nat) (st : LState),
      (∀ v ∈ st.q, (mlookup st.m v).isSome) →
      (∀ v ∈ st.q, ¬ ACycleFrom adj v) →
      layerMeasure adj U.length st.q ≤ fuel →
      LayerInv adj st →
      ∃ mfin, runLayers adj fuel st = some mfin ∧
        (∀ k V, mlookup st.m k = some V →
          ∃ V', mlookup mfin k = some V' ∧ V ≤ V') ∧
        (∀ u v Lu, AStep adj u v → mlookup mfin u = some Lu →
          ∃ Lv, mlookup mfin v = some Lv ∧ Lu + 1 ≤ Lv) := by
  intro fuel
  induction fuel with
  | zero =>
    rintro ⟨ms, qs⟩ hdom _ hμ hinv
    cases qs with
    | nil =>
      refine ⟨ms, rfl, fun k V h => ⟨V, h, le_refl V⟩, fun u v Lu hs hl => ?_⟩
      rcases hinv u v Lu hs hl with h | h
      · exact absurd h (by simp)
      · exact h
    | cons u q' =>
      exfalso
      have : 1 ≤ pcount adj U.length u := pcount_pos U.length u
      simp only [layerMeasure, List.map_cons, List.sum_cons] at hμ
      omega
  | succ f ih =>
    rintro ⟨ms, qs⟩ hdom hnc hμ hinv
    cases qs with
    | nil =>
      refine ⟨ms, rfl, fun k V h => ⟨V, h, le_refl V⟩, fun u v Lu hs hl => ?_⟩
      rcases hinv u v Lu hs hl with h | h
      · exact absurd h (by simp)
      · exact h
    | cons u q' =>
      have hu_q : u ∈ (u :: q' : List Nat) := List.mem_cons_self _ _
      obtain ⟨L, hL⟩ := Option.isSome_iff_exists.mp (hdom u hu_q)
      have hncu : ¬ ACycleFrom adj u := hnc u hu_q
      set st₁ := (adj u).foldl (relaxOne L) { m := ms, q := q' } with hst₁
      have hq₁ : st₁.q = q' ++ adj u := relaxFold_q L (adj u) _
      -- invariant: queue entries are in the map
      have hdom₁ : ∀ v ∈ st₁.q, (mlookup st₁.m v).isSome := by
        intro v hv
        rw [hq₁] at hv
        rcases List.mem_append.mp hv with hv' | hv'
        · exact relaxFold_isSome L (adj u) _ v
            (hdom v (List.mem_cons_of_mem _ hv'))
        · obtain ⟨Lv, hLv, -⟩ := relaxFold_rel L (adj u) _ v hv'
          exact Option.isSome_iff_exists.mpr ⟨Lv, hLv⟩
      -- invariant: queue entries reach no cycle
      have hnc₁ : ∀ v ∈ st₁.q, ¬ ACycleFrom adj v := by
        intro v hv
        rw [hq₁] at hv
        rcases List.mem_append.mp hv with hv' | hv'
        · exact hnc v (List.mem_cons_of_mem _ hv')
        · exact fun h => hncu (cycleFrom_of_step hv' h)
      -- the measure ticks down by exactly one
      have hμ₁ : layerMeasure adj U.length st₁.q ≤ f := by
        rw [hq₁]
        have hunf := pcount_unfold hadjU hncu
        simp only [layerMeasure, List.map_cons, List.sum_cons,
          List.map_append, List.sum_append] at hμ ⊢
        omega
      -- the layer invariant is preserved
      have hinv₁ : LayerInv adj st₁ := by
        intro a b La hs hla
        by_cases haq : a ∈ st₁.q
        · exact Or.inl haq
        · have ha_adj : a ∉ adj u := by
            intro h
            exact haq (by rw [hq₁]; exact List.mem_append_right _ h)
          have ha_q' : a ∉ q' := by
            intro h
            exact haq (by rw [hq₁]; exact List.mem_append_left _ h)
          have hla_old : mlookup ms a = some La := by
            rw [← relaxFold_unchanged L (adj u) { m := ms, q := q' } a ha_adj]
            exact hla
          rcases hinv a b La hs hla_old with h | ⟨Lb, hLb, hle⟩
          · -- a was in the old queue, hence `a = u`
            rcases List.mem_cons.mp h with heq | h'
            · -- a = u: its edges were just relaxed with its final layer
              rw [heq] at hla_old hs
              rw [hla_old] at hL
              have hLa : La = L := Option.some.inj hL
              obtain ⟨Lb, hLb, hle⟩ :=
                relaxFold_rel L (adj u) { m := ms, q := q' } b hs
              exact Or.inr ⟨Lb, hLb, by omega⟩
            · exact absurd h' ha_q'
          · obtain ⟨Lb', hLb', hle'⟩ :=
              relaxFold_mono L (adj u) { m := ms, q := q' } b Lb hLb
            exact Or.inr ⟨Lb', hLb', by omega⟩
      obtain ⟨mfin, hrun, hmono, hfin⟩ := ih st₁ hdom₁ hnc₁ hμ₁ hinv₁
      refine ⟨mfin, ?_, ?_, hfin⟩
      · show (match mlookup ms u with
          | none => none
          | some L =>
              runLayers adj f ((adj u).foldl (relaxOne L) { m := ms, q := q' })) =
          some mfin
        have hL' : mlookup ms u = some L := hL
        rw [hL']
        exact hrun
      · intro k V hk
        obtain ⟨V₁, hV₁, h₁⟩ :=
          relaxFold_mono L (adj u) { m := ms, q := q' } k V hk
        obtain ⟨V₂, hV₂, h₂⟩ := hmono k V₁ hV₁
        exact ⟨V₂, hV₂, le_trans h₁ h₂⟩

/-! ### From the loop lemma to `assign_layers` -/

lemma inDegree_pos_of_target {g : RelayGraph} {x : Nat}
    (h : x ∈ g.edges.map GraphEdge.target_id) : inDegree g x ≠ 0 := by
  obtain ⟨e, he, rfl⟩ := List.mem_map.mp h
  simp only [inDegree]
  intro hlen
  rw [List.length_eq_zero] at hlen
  have : e ∈ g.edges.filter (fun e' => e'.target_id = e.target_id) :=
    List.mem_filter.mpr ⟨he, by simp⟩
  rw [hlen] at this
  exact absurd this (by simp)

/-- Every seed is a node id: in-degree-0 keys cannot be edge targets,
error ids and the first node are node ids. -/
lemma seedsOf_subset_nodeIds (g : RelayGraph) : seedsOf g ⊆ nodeIds g := by
  intro x hx
  rw [seedsOf] at hx
  split_ifs at hx with h1 h2
  · exact List.take_subset _ _ hx
  · obtain ⟨n, hn, rfl⟩ := List.mem_map.mp hx
    exact List.mem_map.mpr ⟨n, (List.mem_filter.mp hn).1, rfl⟩
  · have hx' := List.mem_filter.mp hx
    have hdeg : inDegree g x = 0 := by simpa using hx'.2
    have hkey := hx'.1
    rw [inDegreeKeys, List.mem_dedup, List.mem_append] at hkey
    rcases hkey with h | h
    · exact h
    · exact absurd hdeg (inDegree_pos_of_target h)

lemma minsertFold_isSome :
    ∀ (l : List Nat) (m : List (Nat × Nat)) (k : Nat),
      k ∈ l ∨ (mlookup m k).isSome →
      (mlookup (l.foldl (fun m' id => minsert m' id 0) m) k).isSome := by
  intro l
  induction l with
  | nil =>
    intro m k h
    rcases h with h | h
    · exact absurd h (by simp)
    · exact h
  | cons v rest ih =>
    intro m k h
    rw [List.foldl_cons]
    by_cases hk : v = k
    · subst hk
      exact ih _ _ (Or.inr (by rw [mlookup_minsert_self]; rfl))
    · rcases h with h | h
      · rcases List.mem_cons.mp h with heq | h'
        · exact absurd heq (fun he => hk he.symm)
        · exact ih _ _ (Or.inl h')
      · exact ih _ _ (Or.inr (by rwa [mlookup_minsert_ne _ _ hk]))

lemma minsertFold_mem :
    ∀ (l : List Nat) (m : List (Nat × Nat)) (k : Nat),
      (mlookup (l.foldl (fun m' id => minsert m' id 0) m) k).isSome →
      k ∈ l ∨ (mlookup m k).isSome := by
  intro l
  induction l with
  | nil => intro m k h; exact Or.inr h
  | cons v rest ih =>
    intro m k h
    rw [List.foldl_cons] at h
    rcases ih _ _ h with h' | h'
    · exact Or.inl (List.mem_cons_of_mem _ h')
    · by_cases hk : v = k
      · exact Or.inl (hk ▸ List.mem_cons_self _ _)
      · rw [mlookup_minsert_ne _ _ hk] at h'
        exact Or.inr h'

/-- When `has_cycle` is `false`, the propagation loop of `assign_layers`
terminates within `layerFuel`, its map contains every seed, and every
in-map edge source has its target recorded at a strictly higher layer. -/
lemma assignLayersCore_spec (g : RelayGraph) (hcyc : hasCycle g = false) :
    ∃ core, assignLayersCore g = some core ∧
      (∀ s ∈ seedsOf g, (mlookup core s).isSome) ∧
      (∀ u v Lu, Step g u v → mlookup core u = some Lu →
        ∃ Lv, mlookup core v = some Lv ∧ Lu + 1 ≤ Lv) := by
  have hnv : ∀ r ∈ nodeIds g, ¬ CycleFrom g r := by
    rw [hasCycle_eq_false_iff] at hcyc
    intro r hr hc
    exact hcyc ⟨r, hr, hc⟩
  have hdom : ∀ v ∈ (initLState g).q, (mlookup (initLState g).m v).isSome := by
    intro v hv
    exact minsertFold_isSome (seedsOf g) [] v (Or.inl hv)
  have hnc : ∀ v ∈ (initLState g).q, ¬ ACycleFrom (adjOf g) v := by
    intro v hv
    exact hnv v (seedsOf_subset_nodeIds g hv)
  have hmeas : layerMeasure (adjOf g) (idsOf g).length (initLState g).q ≤
      layerFuel g := by
    rw [layerFuel]
    exact Nat.le_succ _
  have hinv : LayerInv (adjOf g) (initLState g) := by
    intro u v Lu _ hl
    have : (mlookup (initLState g).m u).isSome := by rw [hl]; rfl
    rcases minsertFold_mem (seedsOf g) [] u this with h | h
    · exact Or.inl h
    · exact absurd h (by simp [mlookup])
  obtain ⟨mfin, hrun, hmono, hfin⟩ :=
    runLayers_spec (adjOf_mem_idsOf g) (layerFuel g) (initLState g)
      hdom hnc hmeas hinv
  refine ⟨mfin, hrun, ?_, hfin⟩
  intro s hs
  obtain ⟨V, hV⟩ := Option.isSome_iff_exists.mp
    (minsertFold_isSome (seedsOf g) [] s (Or.inl hs))
  obtain ⟨V', hV', -⟩ := hmono s V hV
  exact Option.isSome_iff_exists.mpr ⟨V', hV'⟩

/-! ### Filling unvisited nodes with layer 0 -/

lemma fillFold_preserves :
    ∀ (ns : List GraphNode) (m : List (Nat × Nat)) (k V : Nat),
      mlookup m k = some V →
      mlookup (ns.foldl (fun m' n =>
        if (mlookup m' n.id).isSome then m' else minsert m' n.id 0) m) k =
        some V := by
  intro ns
  induction ns with
  | nil => intro m k V h; exact h
  | cons n rest ih =>
    intro m k V h
    rw [List.foldl_cons]
    by_cases hn : (mlookup m n.id).isSome
    · rw [if_pos hn]; exact ih m k V h
    · rw [if_neg hn]
      apply ih
      by_cases hk : n.id = k
      · subst hk; rw [h] at hn; exact absurd Option.isSome_some hn
      · rw [mlookup_minsert_ne _ _ hk]; exact h

lemma fillFold_none_mem :
    ∀ (ns : List GraphNode) (m : List (Nat × Nat)) (k : Nat),
      k ∈ ns.map GraphNode.id → mlookup m k = none →
      mlookup (ns.foldl (fun m' n =>
        if (mlookup m' n.id).isSome then m' else minsert m' n.id 0) m) k =
        some 0 := by
  intro ns
  induction ns with
  | nil => intro m k hk _; exact absurd hk (by simp)
  | cons n rest ih =>
    intro m k hk h
    rw [List.foldl_cons]
    by_cases hid : n.id = k
    · subst hid
      rw [if_neg (by simp [h])]
      exact fillFold_preserves rest _ _ _ (mlookup_minsert_self _ _ _)
    · have hk2 : k = n.id ∨ ∃ a ∈ rest, a.id = k := by simpa using hk
      have hk' : k ∈ rest.map GraphNode.id := by
        rcases hk2 with heq | ⟨a, ha, haid⟩
        · exact absurd heq.symm hid
        · exact List.mem_map.mpr ⟨a, ha, haid⟩
      by_cases hn : (mlookup m n.id).isSome
      · rw [if_pos hn]; exact ih m k hk' h
      · rw [if_neg hn]
        exact ih _ k hk' (by rwa [mlookup_minsert_ne _ _ hid])

lemma fillLayers_preserves {g : RelayGraph} {m : List (Nat × Nat)}
    {k V : Nat} (h : mlookup m k = some V) :
    mlookup (fillLayers g m) k = some V :=
  fillFold_preserves g.nodes m k V h

lemma fillLayers_node_zero {g : RelayGraph} {m : List (Nat × Nat)} {k : Nat}
    (hk : k ∈ nodeIds g) (h : mlookup m k = none) :
    mlookup (fillLayers g m) k = some 0 :=
  fillFold_none_mem g.nodes m k hk h

/-! ### Claim C1 -/

/-- C1: for every graph whose edge relation is acyclic (or, more
generally, for which `has_cycle` returned `false` — the only way
`auto_layout` reaches `layout_sugiyama`), the layer assignment
terminates, and for every edge `u → v`: if `u` entered the propagation
map, `layer u < layer v` strictly; if `u` is a node never reached,
`layer u = 0`; and a target with final layer 0 was never reached by a
propagation (no in-neighbor of it entered the propagation map).
Together these give: every edge has `layer u < layer v`, or
`layer u = layer v = 0` with neither endpoint reached by propagation. -/
theorem claim_C1_theorem (g : RelayGraph)
    (h : ¬ HasCycleAnywhere g ∨ hasCycle g = false) :
    ∃ core fin, assignLayersCore g = some core ∧
      assignLayersMap g = some fin ∧
      ∀ e ∈ g.edges,
        (∀ Lu, mlookup core e.source_id = some Lu →
          mlookup fin e.source_id = some Lu ∧
          ∃ Lv, mlookup fin e.target_id = some Lv ∧ Lu < Lv) ∧
        (mlookup core e.source_id = none → e.source_id ∈ nodeIds g →
          mlookup fin e.source_id = some 0) ∧
        (mlookup fin e.target_id = some 0 →
          ∀ u', Step g u' e.target_id → mlookup core u' = none) := by
  have hcyc : hasCycle g = false := by
    rcases h with h | h
    · rw [hasCycle_eq_false_iff]
      rintro ⟨r, -, hc⟩
      exact h ⟨r, hc⟩
    · exact h
  obtain ⟨core, hcore, hseeds, hfin⟩ := assignLayersCore_spec g hcyc
  refine ⟨core, fillLayers g core, hcore, by rw [assignLayersMap, hcore]; rfl,
    fun e he => ⟨?_, ?_, ?_⟩⟩
  · intro Lu hLu
    have hstep : Step g e.source_id e.target_id :=
      aStep_adjOf_iff.mpr ⟨e, he, rfl, rfl⟩
    obtain ⟨Lv, hLv, hle⟩ := hfin _ _ _ hstep hLu
    exact ⟨fillLayers_preserves hLu,
      Lv, fillLayers_preserves hLv, by omega⟩
  · intro hnone hmem
    exact fillLayers_node_zero hmem hnone
  · intro h0 u' hstep'
    cases hu' : mlookup core u' with
    | none => rfl
    | some Lu' =>
      obtain ⟨Lv, hLv, hle⟩ := hfin _ _ _ hstep' hu'
      rw [fillLayers_preserves hLv] at h0
      have := Option.some.inj h0
      omega

/-! ### Seen-map lemmas for the builder -/

lemma slookup_sinsert_self (m : List ((String × Nat) × Nat))
    (k : String × Nat) (v : Nat) : slookup (sinsert m k v) k = some v := by
  induction m with
  | nil => simp [sinsert, slookup]
  | cons p rest ih =>
    obtain ⟨k₀, v₀⟩ := p
    by_cases h : k₀ = k
    · subst h; simp [sinsert, slookup]
    · simp [sinsert, slookup, h, ih]

lemma slookup_sinsert_ne (m : List ((String × Nat) × Nat))
    {k k' : String × Nat} (v : Nat) (h : k ≠ k') :
    slookup (sinsert m k v) k' = slookup m k' := by
  induction m with
  | nil => simp [sinsert, slookup, h]
  | cons p rest ih =>
    obtain ⟨k₀, v₀⟩ := p
    by_cases h₀ : k₀ = k
    · subst h₀; simp [sinsert, slookup, h]
    · simp [sinsert, slookup, h₀, ih]

lemma slookup_sinsert_isSome (m : List ((String × Nat) × Nat))
    {k' : String × Nat} (k : String × Nat) (v : Nat)
    (h : (slookup m k').isSome) : (slookup (sinsert m k v) k').isSome := by
  by_cases hk : k = k'
  · subst hk; rw [slookup_sinsert_self]; rfl
  · rwa [slookup_sinsert_ne _ _ hk]

lemma slookup_sinsert_none {m : List ((String × Nat) × Nat)}
    {k k' : String × Nat} {v : Nat}
    (h : slookup (sinsert m k v) k' = none) : slookup m k' = none := by
  by_cases hk : k = k'
  · subst hk; rw [slookup_sinsert_self] at h; exact absurd h (by simp)
  · rwa [slookup_sinsert_ne _ _ hk] at h

lemma slookup_sinsert_cases {m : List ((String × Nat) × Nat)}
    {k k' : String × Nat} {v t : Nat}
    (h : slookup (sinsert m k v) k' = some t) :
    (k' = k ∧ t = v) ∨ slookup m k' = some t := by
  by_cases hk : k = k'
  · subst hk
    rw [slookup_sinsert_self] at h
    exact Or.inl ⟨rfl, (Option.some.inj h).symm⟩
  · rw [slookup_sinsert_ne _ _ hk] at h
    exact Or.inr h

lemma buildSeenFold_isSome :
    ∀ (nodes : List GraphNode) (m : List ((String × Nat) × Nat))
      (k : String × Nat), (slookup m k).isSome →
      (slookup (nodes.foldl (fun m' n => sinsert m' (skey n) n.id) m) k).isSome := by
  intro nodes
  induction nodes with
  | nil => intro m k h; exact h
  | cons n rest ih =>
    intro m k h
    exact ih _ _ (slookup_sinsert_isSome m _ _ h)

/-- The `seen` map registers every node's key. -/
lemma buildSeen_covers (nodes : List GraphNode) :
    ∀ n ∈ nodes, (slookup (buildSeen nodes) (skey n)).isSome := by
  suffices h : ∀ (l : List GraphNode) (m : List ((String × Nat) × Nat)),
      ∀ n ∈ l, (slookup (l.foldl (fun m' n' => sinsert m' (skey n') n'.id) m)
        (skey n)).isSome by
    intro n hn; exact h nodes [] n hn
  intro l
  induction l with
  | nil => intro m n hn; exact absurd hn (by simp)
  | cons n₀ rest ih =>
    intro m n hn
    rcases List.mem_cons.mp hn with rfl | hn'
    · exact buildSeenFold_isSome rest _ _
        (by rw [slookup_sinsert_self]; rfl)
    · exact ih _ n hn'

lemma buildSeen_values :
    ∀ (nodes : List GraphNode) (m : List ((String × Nat) × Nat))
      (k : String × Nat) (v : Nat),
      slookup (nodes.foldl (fun m' n => sinsert m' (skey n) n.id) m) k =
        some v →
      (∃ n ∈ nodes, n.id = v) ∨ slookup m k = some v := by
  intro nodes
  induction nodes with
  | nil => intro m k v h; exact Or.inr h
  | cons n rest ih =>
    intro m k v h
    rcases ih _ _ _ h with h' | h'
    · obtain ⟨n', hn', hv⟩ := h'
      exact Or.inl ⟨n', List.mem_cons_of_mem _ hn', hv⟩
    · by_cases hk : skey n = k
      · subst hk
        rw [slookup_sinsert_self] at h'
        exact Or.inl ⟨n, List.mem_cons_self _ _, Option.some.inj h'⟩
      · rw [slookup_sinsert_ne _ _ hk] at h'
        exact Or.inr h'

/-! ### Claim C3 -/

/-- The child-reference loop only appends nodes with fresh dedup keys:
keys distinct from every present node and from each other; a reference
whose key is registered appends nothing. -/
lemma processChildRefs_spec (eid : Nat) :
    ∀ (refs : List SymbolRef) (nextId : Nat) (g : RelayGraph)
      (seen : List ((String × Nat) × Nat)),
      (∀ n ∈ g.nodes, (slookup seen (skey n)).isSome) →
      ∃ added newEdges,
        (processChildRefs eid refs nextId g seen).2.nodes =
          g.nodes ++ added ∧
        (processChildRefs eid refs nextId g seen).2.edges =
          g.edges ++ newEdges ∧
        (added.map skey).Nodup ∧
        (∀ a ∈ added, ∀ n ∈ g.nodes, skey a ≠ skey n) ∧
        (∀ a ∈ added, slookup seen (skey a) = none) ∧
        (∀ e ∈ newEdges, e.source_id = eid ∧
          ((∃ k, slookup seen k = some e.target_id) ∨
            e.target_id ∈ added.map GraphNode.id)) := by
  intro refs
  induction refs with
  | nil =>
    intro nextId g seen _
    exact ⟨[], [], by simp [processChildRefs], by simp [processChildRefs],
      by simp, by simp, by simp, by simp⟩
  | cons r rest ih =>
    intro nextId g seen hcover
    cases hlook : slookup seen (r.file, r.line) with
    | some existingId =>
      simp only [processChildRefs, hlook]
      set g' := if g.edges.any (fun e =>
          (e.source_id == eid && e.target_id == existingId) ||
          (e.source_id == existingId && e.target_id == eid)) then g
        else { g with edges := g.edges ++
          [{ source_id := eid, target_id := existingId,
             edge_type := r.edge_type, on_error_path := false }] } with hg'
      have hnodes' : g'.nodes = g.nodes := by
        rw [hg']; split <;> rfl
      have hedges' : ∃ extra, g'.edges = g.edges ++ extra ∧
          ∀ e ∈ extra, e.source_id = eid ∧ e.target_id = existingId := by
        rw [hg']; split
        · exact ⟨[], by simp, by simp⟩
        · refine ⟨_, rfl, ?_⟩
          intro e he
          rcases List.mem_singleton.mp he with rfl
          exact ⟨rfl, rfl⟩
      obtain ⟨extra, hextra, hextraE⟩ := hedges'
      obtain ⟨added, newEdges, h1, h2, h3, h4, h5, h6⟩ :=
        ih nextId g' seen (by rw [hnodes']; exact hcover)
      refine ⟨added, extra ++ newEdges, ?_, ?_, h3, ?_, h5, ?_⟩
      · rw [h1, hnodes']
      · rw [h2, hextra, List.append_assoc]
      · intro a ha n hn
        exact h4 a ha n (by rw [hnodes']; exact hn)
      · intro e he
        rcases List.mem_append.mp he with he' | he'
        · obtain ⟨hs, ht⟩ := hextraE e he'
          exact ⟨hs, Or.inl ⟨(r.file, r.line), ht ▸ hlook⟩⟩
        · exact h6 e he'
    | none =>
      simp only [processChildRefs, hlook]
      set node := mkRefNode nextId r with hnode
      set g' : RelayGraph :=
        { nodes := g.nodes ++ [node],
          edges := g.edges ++
            [{ source_id := eid, target_id := nextId,
               edge_type := r.edge_type, on_error_path := false }] } with hg'
      have hkey : skey node = (r.file, r.line) := rfl
      have hid : node.id = nextId := rfl
      have hcover' : ∀ n ∈ g'.nodes,
          (slookup (sinsert seen (r.file, r.line) nextId) (skey n)).isSome := by
        intro n hn
        rcases List.mem_append.mp hn with hn' | hn'
        · exact slookup_sinsert_isSome seen _ _ (hcover n hn')
        · rcases List.mem_singleton.mp hn' with rfl
          rw [hkey, slookup_sinsert_self]; rfl
      obtain ⟨added, newEdges, h1, h2, h3, h4, h5, h6⟩ :=
        ih (nextId + 1) g' (sinsert seen (r.file, r.line) nextId) hcover'
      refine ⟨node :: added,
        { source_id := eid, target_id := nextId,
          edge_type := r.edge_type, on_error_path := false } :: newEdges,
        ?_, ?_, ?_, ?_, ?_, ?_⟩
      · rw [h1]; simp [hg']
      · rw [h2]; simp [hg']
      · rw [List.map_cons, List.nodup_cons]
        refine ⟨?_, h3⟩
        intro hmem
        obtain ⟨a, ha, hka⟩ := List.mem_map.mp hmem
        have := h5 a ha
        rw [hka, hkey, slookup_sinsert_self] at this
        exact absurd this (by simp)
      · intro a ha n hn
        rcases List.mem_cons.mp ha with rfl | ha'
        · rw [hkey]
          intro hkn
          have := hcover n hn
          rw [← hkn, hlook] at this
          exact absurd this (by simp)
        · exact h4 a ha' n (by rw [hg']; exact List.mem_append_left _ hn)
      · intro a ha
        rcases List.mem_cons.mp ha with rfl | ha'
        · rw [hkey]; exact hlook
        · exact slookup_sinsert_none (h5 a ha')
      · intro e he
        rcases List.mem_cons.mp he with rfl | he'
        · exact ⟨rfl, Or.inr (by
            rw [List.map_cons, hid]
            exact List.mem_cons_self _ _)⟩
        · obtain ⟨hs, ht⟩ := h6 e he'
          refine ⟨hs, ?_⟩
          rcases ht with ⟨k, hk⟩ | hmem
          · rcases slookup_sinsert_cases hk with ⟨-, rfl⟩ | hk'
            · exact Or.inr (by
                rw [List.map_cons, hid]
                exact List.mem_cons_self _ _)
            · exact Or.inl ⟨k, hk'⟩
          · exact Or.inr (by
              rw [List.map_cons]
              exact List.mem_cons_of_mem _ hmem)

/-- C3, counterexample: in the graph built from `c3Batch`, the nodes
discovered for `("x.c", 7)` — one by error 1's child traversal, one by
error 2's direct-reference step — are two non-`ErrorSource` nodes with
the same dedup key: the direct step performs no dedup and does not
reuse the existing node's id. -/
theorem claim_C3_counterexample :
    ¬ C3ClaimProp (buildGraphFromErrors c3Batch) := by
  unfold C3ClaimProp
  decide

/-- C3, amended: deduplication holds for the child-reference traversal
step of `analyze_error_location`: with `seen` built from the current
nodes (last node with a key wins), the loop appends only nodes whose
key differs from every present node and from every other appended node;
a reference whose key is registered appends no node, and every edge it
adds goes from the error node to a registered id or to a node the loop
itself appended.  The direct cursor-to-referenced-symbol step performs
no such check (see the counterexample). -/
theorem claim_C3_theorem (eid nextId : Nat) (refs : List SymbolRef)
    (g : RelayGraph) :
    ∃ added newEdges,
      (processChildRefs eid refs nextId g (buildSeen g.nodes)).2.nodes =
        g.nodes ++ added ∧
      (processChildRefs eid refs nextId g (buildSeen g.nodes)).2.edges =
        g.edges ++ newEdges ∧
      (added.map skey).Nodup ∧
      (∀ a ∈ added, ∀ n ∈ g.nodes, skey a ≠ skey n) ∧
      (∀ a ∈ added, slookup (buildSeen g.nodes) (skey a) = none) ∧
      (∀ e ∈ newEdges, e.source_id = eid ∧
        ((∃ k, slookup (buildSeen g.nodes) k = some e.target_id) ∨
          e.target_id ∈ added.map GraphNode.id)) :=
  processChildRefs_spec eid refs nextId g (buildSeen g.nodes)
    (buildSeen_covers g.nodes)

/-! ### Claim C4 -/

/-- C4: evaluating the builder at `c4Batch` — a single error at
`("e.c", 1)` whose child visitor collects a reference resolving to the
very same `(file, line)` — shows the reference is *not* discarded: the
`seen` lookup resolves it to the error node itself and a self-loop edge
`0 → 0` is appended (the claimed suppression exists only in the direct
cursor step; `visit_children_callback` never compares against the
error's location although its comment says "Skip … self-references" and
`VisitorContext.origin_file` is never read). -/
theorem claim_C4_theorem :
    (buildGraphFromErrors c4Batch).edges =
      [{ source_id := 0, target_id := 0, edge_type := EdgeType.Reference,
         on_error_path := false }] ∧
    (buildGraphFromErrors c4Batch).nodes.length = 1 := by
  constructor
  · rfl
  · rfl

/-! ### Claim C6 -/

/-- Freshness invariant through the child-reference loop: the counter
only grows, all ids stay below it, and no unordered edge pair is
duplicated (the both-direction `already_connected` check guards the
reuse branch; fresh target ids guard the new-node branch). -/
lemma processChildRefs_nodup (eid : Nat) :
    ∀ (refs : List SymbolRef) (nextId : Nat) (g : RelayGraph)
      (seen : List ((String × Nat) × Nat)),
      eid < nextId →
      (∀ n ∈ g.nodes, n.id < nextId) →
      (∀ e ∈ g.edges, e.source_id < nextId ∧ e.target_id < nextId) →
      (∀ k v, slookup seen k = some v → v < nextId) →
      NoDupEdgePairs g →
      nextId ≤ (processChildRefs eid refs nextId g seen).1 ∧
      (∀ n ∈ (processChildRefs eid refs nextId g seen).2.nodes,
        n.id < (processChildRefs eid refs nextId g seen).1) ∧
      (∀ e ∈ (processChildRefs eid refs nextId g seen).2.edges,
        e.source_id < (processChildRefs eid refs nextId g seen).1 ∧
        e.target_id < (processChildRefs eid refs nextId g seen).1) ∧
      NoDupEdgePairs (processChildRefs eid refs nextId g seen).2 := by
  intro refs
  induction refs with
  | nil =>
    intro nextId g seen _ hNodes hEdges _ hDup
    exact ⟨le_refl _, hNodes, hEdges, hDup⟩
  | cons r rest ih =>
    intro nextId g seen hEid hNodes hEdges hSeen hDup
    cases hlook : slookup seen (r.file, r.line) with
    | some existingId =>
      simp only [processChildRefs, hlook]
      split
      · exact ih nextId g seen hEid hNodes hEdges hSeen hDup
      · rename_i hconn
        have hconn' : g.edges.any (fun e =>
            (e.source_id == eid && e.target_id == existingId) ||
            (e.source_id == existingId && e.target_id == eid)) = false :=
          Bool.not_eq_true _ ▸ eq_false_of_ne_true hconn
        have hex : existingId < nextId := hSeen _ _ hlook
        have hEdges' : ∀ e ∈ g.edges ++
            [{ source_id := eid, target_id := existingId,
               edge_type := r.edge_type, on_error_path := false }],
            e.source_id < nextId ∧ e.target_id < nextId := by
          intro e he
          rcases List.mem_append.mp he with he' | he'
          · exact hEdges e he'
          · rcases List.mem_singleton.mp he' with rfl
            exact ⟨hEid, hex⟩
        have hDup' : NoDupEdgePairs
            { g with edges := g.edges ++
              [{ source_id := eid, target_id := existingId,
                 edge_type := r.edge_type, on_error_path := false }] } := by
          rw [NoDupEdgePairs, List.pairwise_append]
          refine ⟨hDup, by simp, ?_⟩
          intro a ha b hb
          rcases List.mem_singleton.mp hb with rfl
          intro hpair
          have hfalse := List.any_eq_false.mp hconn' a ha
          rcases hpair with ⟨h1, h2⟩ | ⟨h1, h2⟩ <;>
            simp only [edgePairEq] at h1 h2 <;>
            simp [h1, h2] at hfalse
        exact ih nextId _ seen hEid hNodes hEdges' hSeen hDup'
    | none =>
      simp only [processChildRefs, hlook]
      have hNodes' : ∀ n ∈ g.nodes ++ [mkRefNode nextId r],
          n.id < nextId + 1 := by
        intro n hn
        rcases List.mem_append.mp hn with hn' | hn'
        · exact Nat.lt_succ_of_lt (hNodes n hn')
        · rcases List.mem_singleton.mp hn' with rfl
          exact Nat.lt_succ_self _
      have hEdges' : ∀ e ∈ g.edges ++
          [{ source_id := eid, target_id := nextId,
             edge_type := r.edge_type, on_error_path := false }],
          e.source_id < nextId + 1 ∧ e.target_id < nextId + 1 := by
        intro e he
        rcases List.mem_append.mp he with he' | he'
        · obtain ⟨h1, h2⟩ := hEdges e he'
          exact ⟨Nat.lt_succ_of_lt h1, Nat.lt_succ_of_lt h2⟩
        · rcases List.mem_singleton.mp he' with rfl
          exact ⟨Nat.lt_succ_of_lt hEid, Nat.lt_succ_self _⟩
      have hSeen' : ∀ k v,
          slookup (sinsert seen (r.file, r.line) nextId) k = some v →
          v < nextId + 1 := by
        intro k v hv
        by_cases hk : (r.file, r.line) = k
        · subst hk
          rw [slookup_sinsert_self] at hv
          rw [← Option.some.inj hv]
          exact Nat.lt_succ_self _
        · rw [slookup_sinsert_ne _ _ hk] at hv
          exact Nat.lt_succ_of_lt (hSeen k v hv)
      have hDup' : NoDupEdgePairs
          { nodes := g.nodes ++ [mkRefNode nextId r],
            edges := g.edges ++
              [{ source_id := eid, target_id := nextId,
                 edge_type := r.edge_type, on_error_path := false }] } := by
        rw [NoDupEdgePairs, List.pairwise_append]
        refine ⟨hDup, by simp, ?_⟩
        intro a ha b hb
        rcases List.mem_singleton.mp hb with rfl
        intro hpair
        obtain ⟨h1, h2⟩ := hEdges a ha
        rcases hpair with ⟨ha1, ha2⟩ | ⟨ha1, ha2⟩ <;>
          simp only at ha1 ha2 <;> omega
      obtain ⟨hle, h1, h2, h3⟩ :=
        ih (nextId + 1) _ _ (Nat.lt_succ_of_lt hEid) hNodes' hEdges'
          hSeen' hDup'
      exact ⟨le_trans (Nat.le_succ _) hle, h1, h2, h3⟩

/-- The whole of `analyze_error_location` preserves the freshness and
no-duplicate-pair invariants. -/
lemma analyzeErrorLocation_spec (err : ErrorInfo) (eid : Nat)
    (dref : Option SymbolRef) (cands : List SymbolRef) (nextId : Nat)
    (g : RelayGraph)
    (hEid : eid < nextId)
    (hNodes : ∀ n ∈ g.nodes, n.id < nextId)
    (hEdges : ∀ e ∈ g.edges, e.source_id < nextId ∧ e.target_id < nextId)
    (hDup : NoDupEdgePairs g) :
    nextId ≤ (analyzeErrorLocation err eid dref cands nextId g).1 ∧
    (∀ n ∈ (analyzeErrorLocation err eid dref cands nextId g).2.nodes,
      n.id < (analyzeErrorLocation err eid dref cands nextId g).1) ∧
    (∀ e ∈ (analyzeErrorLocation err eid dref cands nextId g).2.edges,
      e.source_id < (analyzeErrorLocation err eid dref cands nextId g).1 ∧
      e.target_id < (analyzeErrorLocation err eid dref cands nextId g).1) ∧
    NoDupEdgePairs (analyzeErrorLocation err eid dref cands nextId g).2 := by
  show nextId ≤ (processChildRefs eid (collectChildRefs cands)
      (directStep err eid dref nextId g).1 (directStep err eid dref nextId g).2
      (buildSeen (directStep err eid dref nextId g).2.nodes)).1 ∧ _
  set afterDirect := directStep err eid dref nextId g with hAD
  have hstep : nextId ≤ afterDirect.1 ∧ eid < afterDirect.1 ∧
      (∀ n ∈ afterDirect.2.nodes, n.id < afterDirect.1) ∧
      (∀ e ∈ afterDirect.2.edges,
        e.source_id < afterDirect.1 ∧ e.target_id < afterDirect.1) ∧
      NoDupEdgePairs afterDirect.2 := by
    cases dref with
    | none => exact ⟨le_refl _, hEid, hNodes, hEdges, hDup⟩
    | some r =>
      simp only [hAD, directStep]
      by_cases hc : r.file ≠ err.file_path ∨ r.line ≠ err.line
      · simp only [if_pos hc]
        refine ⟨Nat.le_succ _, Nat.lt_succ_of_lt hEid, ?_, ?_, ?_⟩
        · intro n hn
          rcases List.mem_append.mp hn with hn' | hn'
          · exact Nat.lt_succ_of_lt (hNodes n hn')
          · rcases List.mem_singleton.mp hn' with rfl
            exact Nat.lt_succ_self _
        · intro e he
          rcases List.mem_append.mp he with he' | he'
          · obtain ⟨h1, h2⟩ := hEdges e he'
            exact ⟨Nat.lt_succ_of_lt h1, Nat.lt_succ_of_lt h2⟩
          · rcases List.mem_singleton.mp he' with rfl
            exact ⟨Nat.lt_succ_of_lt hEid, Nat.lt_succ_self _⟩
        · rw [NoDupEdgePairs, List.pairwise_append]
          refine ⟨hDup, by simp, ?_⟩
          intro a ha b hb
          rcases List.mem_singleton.mp hb with rfl
          intro hpair
          obtain ⟨h1, h2⟩ := hEdges a ha
          rcases hpair with ⟨ha1, ha2⟩ | ⟨ha1, ha2⟩ <;>
            simp only at ha1 ha2 <;> omega
      · simp only [if_neg hc]
        exact ⟨le_refl _, hEid, hNodes, hEdges, hDup⟩
  obtain ⟨hle, hEid', hNodes', hEdges', hDup'⟩ := hstep
  have hSeen' : ∀ k v, slookup (buildSeen afterDirect.2.nodes) k = some v →
      v < afterDirect.1 := by
    intro k v hv
    rcases buildSeen_values afterDirect.2.nodes [] k v hv with h | h
    · obtain ⟨n, hn, rfl⟩ := h
      exact hNodes' n hn
    · exact absurd h (by simp [slookup])
  obtain ⟨h1, h2, h3, h4⟩ :=
    processChildRefs_nodup eid (collectChildRefs cands) afterDirect.1
      afterDirect.2 (buildSeen afterDirect.2.nodes) hEid' hNodes' hEdges'
      hSeen' hDup'
  exact ⟨le_trans hle h1, h2, h3, h4⟩

/-- The build fold preserves the invariants for any remaining items
whose error ids are below the counter. -/
lemma buildFold_spec :
    ∀ (ps : List (Nat × ErrorInfo × Option SymbolRef × List SymbolRef))
      (st : Nat × RelayGraph),
      (∀ p ∈ ps, p.1 < st.1) →
      (∀ n ∈ st.2.nodes, n.id < st.1) →
      (∀ e ∈ st.2.edges, e.source_id < st.1 ∧ e.target_id < st.1) →
      NoDupEdgePairs st.2 →
      NoDupEdgePairs
        (ps.foldl (fun st p =>
          analyzeErrorLocation p.2.1 p.1 p.2.2.1 p.2.2.2 st.1 st.2) st).2 := by
  intro ps
  induction ps with
  | nil => intro st _ _ _ hDup; exact hDup
  | cons p rest ih =>
    intro st hIds hNodes hEdges hDup
    rw [List.foldl_cons]
    have hp : p.1 < st.1 := hIds p (List.mem_cons_self _ _)
    obtain ⟨hle, h2, h3, h4⟩ :=
      analyzeErrorLocation_spec p.2.1 p.1 p.2.2.1 p.2.2.2 st.1 st.2
        hp hNodes hEdges hDup
    exact ih _ (fun q hq => lt_of_lt_of_le
      (hIds q (List.mem_cons_of_mem _ hq)) hle) h2 h3 h4

/-- C6: over an entire error batch, no two edges of the built graph
share an unordered `{source_id, target_id}` pair — phase 1 adds no
edges, the reuse branch is guarded by the both-direction
`already_connected` check, and every other edge targets a freshly
allocated id. -/
theorem claim_C6_theorem (batch : ErrorBatch) :
    NoDupEdgePairs (buildGraphFromErrors batch) := by
  rw [buildGraphFromErrors]
  apply buildFold_spec
  · intro p hp
    have : p.1 < batch.items.length := by
      by_contra hge
      rw [List.mem_enum_iff_getElem?] at hp
      rw [List.getElem?_eq_none (Nat.le_of_not_lt hge)] at hp
      exact absurd hp (by simp)
    omega
  · intro n hn
    simp only [List.mem_map] at hn
    obtain ⟨p, hp, rfl⟩ := hn
    have : p.1 < batch.items.length := by
      by_contra hge
      rw [List.mem_enum_iff_getElem?] at hp
      rw [List.getElem?_eq_none (Nat.le_of_not_lt hge)] at hp
      exact absurd hp (by simp)
    simp only [mkErrorNode, GraphNode.new]
    omega
  · intro e he
    exact absurd he (by simp)
  · rw [NoDupEdgePairs]
    exact List.Pairwise.nil

/-! ### Claim C5: barycenter keys and stable sorting -/

lemma undirAdjGet_ne_nil {g : RelayGraph} {node : Nat} {ns : List Nat}
    (h : undirAdjGet g node = some ns) : ns ≠ [] := by
  rw [undirAdjGet] at h
  split at h
  · exact absurd h (by simp)
  · rename_i hne
    rw [← Option.some.inj h]
    exact hne

lemma barycenter_of_none {g : RelayGraph} {pos : List (Nat × ℚ)}
    {node : Nat} (h : undirAdjGet g node = none) :
    barycenter (undirAdjGet g) pos node = 0 := by
  simp only [barycenter, h]

lemma barycenter_of_no_positions {g : RelayGraph} {pos : List (Nat × ℚ)}
    {node : Nat} {ns : List Nat} (h : undirAdjGet g node = some ns)
    (hall : ∀ nb ∈ ns, qlookup pos nb = none) :
    barycenter (undirAdjGet g) pos node = 0 := by
  have hne := undirAdjGet_ne_nil h
  have hempty : ns.isEmpty = false := by
    cases ns with
    | nil => exact absurd rfl hne
    | cons a l => rfl
  have hfilter : ns.filter (fun n => (qlookup pos n).isSome) = [] := by
    rw [List.filter_eq_nil_iff]
    intro n hn
    rw [hall n hn]
    simp
  simp only [barycenter, h, hempty, Bool.false_eq_true, if_false, hfilter,
    List.length_nil, lt_irrefl, if_neg, reduceIte]

lemma insertLE_mem (key : Nat → ℚ) (x : Nat) :
    ∀ (acc : List Nat) (z : Nat), z ∈ insertLE key x acc ↔ z = x ∨ z ∈ acc := by
  intro acc
  induction acc with
  | nil => intro z; simp [insertLE]
  | cons y rest ih =>
    intro z
    rw [insertLE]
    by_cases h : key y ≤ key x
    · rw [if_pos h]
      constructor
      · intro hz
        rcases List.mem_cons.mp hz with rfl | hz'
        · exact Or.inr (List.mem_cons_self _ _)
        · rcases (ih z).mp hz' with h' | h'
          · exact Or.inl h'
          · exact Or.inr (List.mem_cons_of_mem _ h')
      · intro hz
        rcases hz with rfl | hz'
        · exact List.mem_cons_of_mem _ ((ih z).mpr (Or.inl rfl))
        · rcases List.mem_cons.mp hz' with rfl | hz''
          · exact List.mem_cons_self _ _
          · exact List.mem_cons_of_mem _ ((ih z).mpr (Or.inr hz''))
    · rw [if_neg h]
      constructor
      · intro hz
        rcases List.mem_cons.mp hz with rfl | hz'
        · exact Or.inl rfl
        · exact Or.inr hz'
      · intro hz
        rcases hz with rfl | hz'
        · exact List.mem_cons_self _ _
        · exact List.mem_cons_of_mem _ hz'

lemma insertLE_sorted (key : Nat → ℚ) (x : Nat) :
    ∀ (acc : List Nat), acc.Pairwise (fun a b => key a ≤ key b) →
      (insertLE key x acc).Pairwise (fun a b => key a ≤ key b) := by
  intro acc
  induction acc with
  | nil => intro _; simp [insertLE]
  | cons y rest ih =>
    intro hp
    rw [List.pairwise_cons] at hp
    rw [insertLE]
    by_cases h : key y ≤ key x
    · rw [if_pos h, List.pairwise_cons]
      refine ⟨?_, ih hp.2⟩
      intro z hz
      rcases (insertLE_mem key x rest z).mp hz with rfl | hz'
      · exact h
      · exact hp.1 z hz'
    · rw [if_neg h, List.pairwise_cons]
      refine ⟨?_, List.pairwise_cons.mpr hp⟩
      intro z hz
      rcases List.mem_cons.mp hz with rfl | hz'
      · exact le_of_lt (lt_of_not_le h)
      · exact le_trans (le_of_lt (lt_of_not_le h)) (hp.1 z hz')

lemma insertLE_filter (key : Nat → ℚ) (k : ℚ) (x : Nat) :
    ∀ (acc : List Nat), acc.Pairwise (fun a b => key a ≤ key b) →
      (insertLE key x acc).filter (fun y => key y == k) =
        if key x = k then acc.filter (fun y => key y == k) ++ [x]
        else acc.filter (fun y => key y == k) := by
  intro acc
  induction acc with
  | nil =>
    intro _
    by_cases hk : key x = k
    · simp [insertLE, hk]
    · simp [insertLE, hk]
  | cons y rest ih =>
    intro hp
    rw [List.pairwise_cons] at hp
    rw [insertLE]
    by_cases h : key y ≤ key x
    · rw [if_pos h, List.filter_cons, List.filter_cons, ih hp.2]
      by_cases hk : key x = k
      · rw [if_pos hk, if_pos hk]
        cases hyk : (key y == k) <;> simp
      · rw [if_neg hk, if_neg hk]
    · rw [if_neg h]
      by_cases hk : key x = k
      · have hrest : (y :: rest).filter (fun z => key z == k) = [] := by
          rw [List.filter_eq_nil_iff]
          intro z hz
          have hyz : key y ≤ key z := by
            rcases List.mem_cons.mp hz with rfl | hz'
            · exact le_refl _
            · exact hp.1 z hz'
          have : k < key z := lt_of_lt_of_le (hk ▸ lt_of_not_le h) hyz
          simp only [beq_iff_eq]
          intro hzk
          rw [hzk] at this
          exact lt_irrefl _ this
        rw [List.filter_cons, hrest]
        simp [hk]
      · rw [List.filter_cons]
        simp [hk]

lemma sortByKeyFold_filter (key : Nat → ℚ) (k : ℚ) :
    ∀ (l acc : List Nat), acc.Pairwise (fun a b => key a ≤ key b) →
      (l.foldl (fun acc' x => insertLE key x acc') acc).filter
        (fun y => key y == k) =
      acc.filter (fun y => key y == k) ++ l.filter (fun y => key y == k) := by
  intro l
  induction l with
  | nil => intro acc _; simp
  | cons x rest ih =>
    intro acc hp
    rw [List.foldl_cons, ih _ (insertLE_sorted key x acc hp),
      insertLE_filter key k x acc hp, List.filter_cons]
    by_cases hk : key x = k
    · rw [if_pos hk]
      simp [hk, List.append_assoc]
    · rw [if_neg hk]
      simp [hk]

/-- The stable sort leaves each class of key-tied elements in its
original relative order. -/
lemma sortByKey_stable (key : Nat → ℚ) (k : ℚ) (l : List Nat) :
    (sortByKey key l).filter (fun y => key y == k) =
      l.filter (fun y => key y == k) := by
  rw [sortByKey, sortByKeyFold_filter key k l [] List.Pairwise.nil]
  simp

/-- C5, counterexample: a node with no incident edges (id 3 of
`gNoEdges`) at previous position 2 gets barycenter sort key `0.0`, not
its previous position: the adjacency lookup misses and the `None` arm
returns `0.0` — the branch returning the previous position requires a
present-but-empty adjacency entry, which is never built. -/
theorem claim_C5_counterexample :
    undirAdjGet gNoEdges 3 = none ∧
    qlookup [(3, 2)] 3 = some 2 ∧
    barycenter (undirAdjGet gNoEdges) [(3, 2)] 3 = 0 ∧ (0 : ℚ) ≠ 2 := by
  refine ⟨rfl, rfl, rfl, by norm_num⟩

/-- C5, amended: during each barycenter pass, a node with no adjacency
entry (no incident edges), or none of whose neighbors has a recorded
position, gets sort key `0.0` (not its previous position — the
previous-position branch is dead because adjacency entries are nonempty
by construction); ties are broken by the stable sort, which leaves
key-tied elements in their prior relative order. -/
theorem claim_C5_theorem (g : RelayGraph) (pos : List (Nat × ℚ))
    (node : Nat) (key : Nat → ℚ) (k : ℚ) (l : List Nat) :
    (undirAdjGet g node = none →
      barycenter (undirAdjGet g) pos node = 0) ∧
    (∀ ns, undirAdjGet g node = some ns →
      ns ≠ [] ∧
      ((∀ nb ∈ ns, qlookup pos nb = none) →
        barycenter (undirAdjGet g) pos node = 0)) ∧
    (sortByKey key l).filter (fun y => key y == k) =
      l.filter (fun y => key y == k) := by
  refine ⟨fun h => barycenter_of_none h,
    fun ns h => ⟨undirAdjGet_ne_nil h,
      fun hall => barycenter_of_no_positions h hall⟩,
    sortByKey_stable key k l⟩

/-- C5, witness: the amended theorem at the edgeless graph, a concrete
position map, and a concrete tie-breaking instance. -/
theorem claim_C5_witness :
    undirAdjGet gNoEdges 3 = none ∧
    ((undirAdjGet gNoEdges 3 = none →
      barycenter (undirAdjGet gNoEdges) [(3, 2)] 3 = 0) ∧
    (∀ ns, undirAdjGet gNoEdges 3 = some ns →
      ns ≠ [] ∧
      ((∀ nb ∈ ns, qlookup [(3, 2)] nb = none) →
        barycenter (undirAdjGet gNoEdges) [(3, 2)] 3 = 0)) ∧
    (sortByKey (fun _ => (0 : ℚ)) [4, 9]).filter
      (fun y => (fun _ => (0 : ℚ)) y == 0) =
      [4, 9].filter (fun y => (fun _ => (0 : ℚ)) y == 0)) :=
  ⟨rfl, claim_C5_theorem gNoEdges [(3, 2)] 3 (fun _ => (0 : ℚ)) 0 [4, 9]⟩

/-! ### Claim C7: circle initialization and determinism -/

lemma two_pi_pos : (0 : ℝ) < 2 * Real.pi := by positivity

lemma circle_angle_lt {n i : Nat} (hn : 0 < n) (hi : i < n) :
    2 * Real.pi * (i : ℝ) / (n : ℝ) < 2 * Real.pi := by
  rw [div_lt_iff₀ (by exact_mod_cast hn)]
  calc 2 * Real.pi * (i : ℝ) < 2 * Real.pi * (n : ℝ) := by
        apply mul_lt_mul_of_pos_left _ two_pi_pos
        exact_mod_cast hi
    _ = 2 * Real.pi * (n : ℝ) := rfl

lemma circle_angle_nonneg {n i : Nat} :
    0 ≤ 2 * Real.pi * (i : ℝ) / (n : ℝ) := by positivity

/-- Distinct angle indices below `n` give distinct points on the
circle. -/
lemma circle_inj {n : Nat} (hn : 0 < n) {i j : Nat} (hi : i < n)
    (hj : j < n)
    (hc : Real.cos (2 * Real.pi * (i : ℝ) / (n : ℝ)) =
      Real.cos (2 * Real.pi * (j : ℝ) / (n : ℝ)))
    (hs : Real.sin (2 * Real.pi * (i : ℝ) / (n : ℝ)) =
      Real.sin (2 * Real.pi * (j : ℝ) / (n : ℝ))) : i = j := by
  set a := 2 * Real.pi * (i : ℝ) / (n : ℝ) with ha
  set b := 2 * Real.pi * (j : ℝ) / (n : ℝ) with hb
  have hcos1 : Real.cos (a - b) = 1 := by
    rw [Real.cos_sub, hc, hs]
    have := Real.sin_sq_add_cos_sq b
    nlinarith [Real.sin_sq_add_cos_sq b]
  have hbound1 : -(2 * Real.pi) < a - b := by
    have h1 : b < 2 * Real.pi := circle_angle_lt hn hj
    have h2 : 0 ≤ a := circle_angle_nonneg
    linarith
  have hbound2 : a - b < 2 * Real.pi := by
    have h1 : a < 2 * Real.pi := circle_angle_lt hn hi
    have h2 : 0 ≤ b := circle_angle_nonneg
    linarith
  have hab : a = b := by
    have := (Real.cos_eq_one_iff_of_lt_of_lt hbound1 hbound2).mp hcos1
    linarith
  rw [ha, hb] at hab
  have hn' : (n : ℝ) ≠ 0 := by exact_mod_cast Nat.pos_iff_ne_zero.mp hn
  have hab' : (2 * Real.pi) * (i : ℝ) = (2 * Real.pi) * (j : ℝ) :=
    (div_left_inj' hn').mp hab
  have : (i : ℝ) = (j : ℝ) := mul_left_cancel₀ (ne_of_gt two_pi_pos) hab'
  exact_mod_cast this

lemma initCircle_length (nodes : List GraphNode) :
    (initCircle nodes).length = nodes.length := by
  rw [initCircle, List.length_map, List.enum_length]

lemma initCircle_get (nodes : List GraphNode) (i : Nat)
    (hi : i < (initCircle nodes).length) :
    ((initCircle nodes).get ⟨i, hi⟩).x =
      (nodes.length : ℝ) * 50 *
        Real.cos (2 * Real.pi * (i : ℝ) / (nodes.length : ℝ)) ∧
    ((initCircle nodes).get ⟨i, hi⟩).y =
      (nodes.length : ℝ) * 50 *
        Real.sin (2 * Real.pi * (i : ℝ) / (nodes.length : ℝ)) := by
  have hi' : i < nodes.length := by rwa [initCircle_length] at hi
  rw [List.get_eq_getElem]
  simp only [initCircle, List.getElem_map, List.getElem_enum]
  refine ⟨?_, ?_⟩ <;> first | rfl | trivial

/-- C7: the force-directed layout is a pure function of the graph and
the iteration budget (no hidden randomness: re-running yields the same
result); running zero iterations exposes exactly the circle
initialization; and at that initialization, any two distinct nodes sit
at distinct coordinates. -/
theorem claim_C7_theorem (g : RelayGraph) (it : Nat)
    (h2 : 2 ≤ g.nodes.length) :
    layoutForceDirected g it = layoutForceDirected g it ∧
    (layoutForceDirected g 0).nodes = initCircle g.nodes ∧
    (∀ i j (hi : i < (initCircle g.nodes).length)
      (hj : j < (initCircle g.nodes).length), i ≠ j →
      ((initCircle g.nodes).get ⟨i, hi⟩).x ≠
        ((initCircle g.nodes).get ⟨j, hj⟩).x ∨
      ((initCircle g.nodes).get ⟨i, hi⟩).y ≠
        ((initCircle g.nodes).get ⟨j, hj⟩).y) := by
  refine ⟨rfl, ?_, ?_⟩
  · rw [layoutForceDirected, if_neg (by omega)]
    rfl
  · intro i j hi hj hij
    by_contra hcon
    push_neg at hcon
    obtain ⟨hx, hy⟩ := hcon
    obtain ⟨hxi, hyi⟩ := initCircle_get g.nodes i hi
    obtain ⟨hxj, hyj⟩ := initCircle_get g.nodes j hj
    rw [hxi, hxj] at hx
    rw [hyi, hyj] at hy
    have hr : ((g.nodes.length : ℝ) * 50) ≠ 0 := by
      have : (0 : ℝ) < (g.nodes.length : ℝ) := by
        exact_mod_cast lt_of_lt_of_le (by omega : 0 < 2) h2
      positivity
    have hc := mul_left_cancel₀ hr hx
    have hs := mul_left_cancel₀ hr hy
    have hn : 0 < g.nodes.length := by omega
    have hi' : i < g.nodes.length := by rwa [initCircle_length] at hi
    have hj' : j < g.nodes.length := by rwa [initCircle_length] at hj
    exact hij (circle_inj hn hi' hj' hc hs)

/-- C7, witness: applied to the two-node graph `gPair` with the default
100-iteration budget. -/
theorem claim_C7_witness :
    2 ≤ gPair.nodes.length ∧
    (layoutForceDirected gPair 100 = layoutForceDirected gPair 100 ∧
    (layoutForceDirected gPair 0).nodes = initCircle gPair.nodes ∧
    (∀ i j (hi : i < (initCircle gPair.nodes).length)
      (hj : j < (initCircle gPair.nodes).length), i ≠ j →
      ((initCircle gPair.nodes).get ⟨i, hi⟩).x ≠
        ((initCircle gPair.nodes).get ⟨j, hj⟩).x ∨
      ((initCircle gPair.nodes).get ⟨i, hi⟩).y ≠
        ((initCircle gPair.nodes).get ⟨j, hj⟩).y)) :=
  ⟨by decide, claim_C7_theorem gPair 100 (by decide)⟩

/-! ### Claim C10: layout writes only x and y -/

lemma updateFirst_map_eraseXY (p : GraphNode → Bool)
    (f : GraphNode → GraphNode) (hf : ∀ n, eraseXY (f n) = eraseXY n) :
    ∀ nodes : List GraphNode,
      (updateFirst p f nodes).map eraseXY = nodes.map eraseXY := by
  intro nodes
  induction nodes with
  | nil => rfl
  | cons n rest ih =>
    rw [updateFirst]
    by_cases h : p n
    · rw [if_pos h, List.map_cons, List.map_cons, hf]
    · rw [if_neg h, List.map_cons, List.map_cons, ih]

lemma setNodeXY_map_eraseXY (id : Nat) (x y : ℝ) (nodes : List GraphNode) :
    (setNodeXY id x y nodes).map eraseXY = nodes.map eraseXY :=
  updateFirst_map_eraseXY (fun n => n.id == id)
    (fun n => { n with x := x, y := y }) (fun _ => rfl) nodes

lemma updateFirst_length (p : GraphNode → Bool) (f : GraphNode → GraphNode) :
    ∀ nodes : List GraphNode,
      (updateFirst p f nodes).length = nodes.length := by
  intro nodes
  induction nodes with
  | nil => rfl
  | cons n rest ih =>
    rw [updateFirst]
    by_cases h : p n
    · rw [if_pos h]; rfl
    · rw [if_neg h, List.length_cons, List.length_cons, ih]

lemma foldl_pres_eraseXY {β : Type} (f : List GraphNode → β → List GraphNode)
    (hf : ∀ acc b, (f acc b).map eraseXY = acc.map eraseXY) :
    ∀ (l : List β) (acc : List GraphNode),
      (l.foldl f acc).map eraseXY = acc.map eraseXY := by
  intro l
  induction l with
  | nil => intro acc; rfl
  | cons b rest ih =>
    intro acc
    rw [List.foldl_cons, ih, hf]

/-- Coordinate assignment writes only x/y and keeps the node order. -/
lemma assignCoordinates_frame (layers : List (List Nat)) (g : RelayGraph) :
    (assignCoordinates layers g).nodes.map eraseXY = g.nodes.map eraseXY ∧
    (assignCoordinates layers g).edges = g.edges := by
  constructor
  · show (layers.enum.foldl _ g.nodes).map eraseXY = g.nodes.map eraseXY
    apply foldl_pres_eraseXY
    intro acc b
    apply foldl_pres_eraseXY
    intro acc' p
    exact setNodeXY_map_eraseXY _ _ _ _
  · rfl

lemma initCircle_map_eraseXY (nodes : List GraphNode) :
    (initCircle nodes).map eraseXY = nodes.map eraseXY := by
  rw [initCircle, List.map_map]
  have : ∀ p : Nat × GraphNode,
      (eraseXY ∘ fun p : Nat × GraphNode =>
        { p.2 with
          x := (nodes.length : ℝ) * 50 *
            Real.cos (2 * Real.pi * (p.1 : ℝ) / (nodes.length : ℝ)),
          y := (nodes.length : ℝ) * 50 *
            Real.sin (2 * Real.pi * (p.1 : ℝ) / (nodes.length : ℝ)) }) p =
        (eraseXY ∘ Prod.snd) p := fun p => rfl
  rw [List.map_congr_left (fun p _ => this p), ← List.map_map,
    List.enum_map_snd]

lemma applyRep_length (krep : ℝ) (positions : List Vec2) (vel : List Vec2)
    (p : Nat × Nat) : (applyRep krep positions vel p).length = vel.length := by
  simp [applyRep]

lemma applyAtt_length (katt : ℝ) (positions : List Vec2) (vel : List Vec2)
    (p : Nat × Nat) : (applyAtt katt positions vel p).length = vel.length := by
  simp [applyAtt]

lemma foldl_pres_length {β : Type} (f : List Vec2 → β → List Vec2)
    (hf : ∀ acc b, (f acc b).length = acc.length) :
    ∀ (l : List β) (acc : List Vec2), (l.foldl f acc).length = acc.length := by
  intro l
  induction l with
  | nil => intro acc; rfl
  | cons b rest ih =>
    intro acc
    rw [List.foldl_cons, ih, hf]

/-- One force iteration: only x/y written, node count and velocity
count preserved. -/
lemma forceStep_spec (pairs : List (Nat × Nat))
    (st : List GraphNode × List Vec2) (hlen : st.2.length = st.1.length) :
    (forceStep pairs st).1.map eraseXY = st.1.map eraseXY ∧
    (forceStep pairs st).1.length = st.1.length ∧
    (forceStep pairs st).2.length = st.1.length := by
  obtain ⟨nodes, vel⟩ := st
  simp only at hlen
  set pos := nodes.map (fun nd => Vec2.mk nd.x nd.y) with hpos
  set vel1 := (repPairs nodes.length).foldl (applyRep 5000 pos) vel with hv1def
  set vel2 := pairs.foldl (applyAtt (1 / 100) pos) vel1 with hv2def
  set vel3 := vel2.map (vscale (95 / 100)) with hv3def
  have hforce : forceStep pairs (nodes, vel) =
      ((nodes.zip vel3).map
        (fun p => { p.1 with x := p.1.x + p.2.x, y := p.1.y + p.2.y }),
       vel3) := rfl
  have hv1 : vel1.length = vel.length := by
    rw [hv1def]
    exact foldl_pres_length _ (fun acc b => applyRep_length _ _ _ _) _ _
  have hv2 : vel2.length = vel.length := by
    rw [hv2def]
    rw [foldl_pres_length _ (fun acc b => applyAtt_length _ _ _ _), hv1]
  have hv3 : vel3.length = nodes.length := by
    rw [hv3def, List.length_map, hv2, hlen]
  rw [hforce]
  refine ⟨?_, ?_, ?_⟩
  · show ((nodes.zip vel3).map _).map eraseXY = nodes.map eraseXY
    rw [List.map_map]
    have heq : ∀ p : GraphNode × Vec2,
        (eraseXY ∘ fun p : GraphNode × Vec2 =>
          { p.1 with x := p.1.x + p.2.x, y := p.1.y + p.2.y }) p =
        (eraseXY ∘ Prod.fst) p := fun p => rfl
    rw [List.map_congr_left (fun p _ => heq p), ← List.map_map,
      List.map_fst_zip]
    rw [hv3]
  · show ((nodes.zip vel3).map _).length = nodes.length
    rw [List.length_map, List.length_zip, hv3, min_self]
  · exact hv3

lemma forceLoop_spec (pairs : List (Nat × Nat)) :
    ∀ (k : Nat) (st : List GraphNode × List Vec2),
      st.2.length = st.1.length →
      (forceLoop (forceStep pairs) k st).1.map eraseXY = st.1.map eraseXY ∧
      (forceLoop (forceStep pairs) k st).1.length = st.1.length := by
  intro k
  induction k with
  | zero => intro st _; exact ⟨rfl, rfl⟩
  | succ k ih =>
    intro st hlen
    obtain ⟨h1, h2, h3⟩ := forceStep_spec pairs st hlen
    obtain ⟨ih1, ih2⟩ := ih (forceStep pairs st) (by rw [h3, h2])
    rw [forceLoop]
    exact ⟨by rw [ih1, h1], by rw [ih2, h2]⟩

/-- The force-directed engine writes only x/y. -/
lemma layoutForceDirected_frame (g : RelayGraph) (it : Nat) :
    (layoutForceDirected g it).nodes.map eraseXY = g.nodes.map eraseXY ∧
    (layoutForceDirected g it).edges = g.edges := by
  rw [layoutForceDirected]
  by_cases h : g.nodes.length ≤ 1
  · rw [if_pos h]; exact ⟨rfl, rfl⟩
  · rw [if_neg h]
    constructor
    · show (forceLoop _ it (initCircle g.nodes, _)).1.map eraseXY =
        g.nodes.map eraseXY
      obtain ⟨h1, -⟩ := forceLoop_spec
        (edgePairsOf (initCircle g.nodes) g.edges) it
        (initCircle g.nodes, List.replicate (initCircle g.nodes).length vzero)
        (by simp)
      rw [h1]
      exact initCircle_map_eraseXY g.nodes
    · rfl

lemma layoutForceDirected_length (g : RelayGraph) (it : Nat) :
    (layoutForceDirected g it).nodes.length = g.nodes.length := by
  have := (layoutForceDirected_frame g it).1
  have hlen := congrArg List.length this
  rwa [List.length_map, List.length_map] at hlen

/-- The sugiyama pipeline writes only x/y. -/
lemma layoutSugiyama_frame (g : RelayGraph) (r : RelayGraph)
    (h : layoutSugiyama g = some r) :
    r.nodes.map eraseXY = g.nodes.map eraseXY ∧ r.edges = g.edges := by
  rw [layoutSugiyama] at h
  by_cases he : g.nodes.isEmpty
  · rw [if_pos he] at h
    rw [← Option.some.inj h]
    exact ⟨rfl, rfl⟩
  · rw [if_neg he] at h
    cases hl : assignLayers g with
    | none => rw [hl] at h; exact absurd h (by simp)
    | some layers =>
      rw [hl] at h
      rw [← Option.some.inj h]
      exact assignCoordinates_frame _ g

/-- C10: the layout engines write only the `x`/`y` fields — every other
node field, the node order and count, and the whole edge list are
untouched by `auto_layout`, `layout_force_directed`, `layout_sugiyama`
and `assign_coordinates`. -/
theorem claim_C10_theorem (g : RelayGraph) (it : Nat)
    (layers : List (List Nat)) :
    ((autoLayout g).nodes.map eraseXY = g.nodes.map eraseXY ∧
      (autoLayout g).edges = g.edges) ∧
    ((layoutForceDirected g it).nodes.map eraseXY = g.nodes.map eraseXY ∧
      (layoutForceDirected g it).edges = g.edges) ∧
    (∀ r, layoutSugiyama g = some r →
      r.nodes.map eraseXY = g.nodes.map eraseXY ∧ r.edges = g.edges) ∧
    ((assignCoordinates layers g).nodes.map eraseXY = g.nodes.map eraseXY ∧
      (assignCoordinates layers g).edges = g.edges) := by
  refine ⟨?_, layoutForceDirected_frame g it,
    fun r hr => layoutSugiyama_frame g r hr, assignCoordinates_frame layers g⟩
  rw [autoLayout]
  by_cases he : g.nodes.isEmpty
  · rw [if_pos he]; exact ⟨rfl, rfl⟩
  · rw [if_neg he]
    by_cases hc : hasCycle g
    · rw [if_pos hc]
      exact layoutForceDirected_frame g 100
    · rw [if_neg hc]
      cases hs : layoutSugiyama g with
      | none => exact ⟨rfl, rfl⟩
      | some r => exact layoutSugiyama_frame g r hs

/-- C10, witness: at the singleton graph `gNoEdges` (node 3, no edges)
the sugiyama path is taken and produces a concrete `some` result. -/
theorem claim_C10_witness :
    (∃ r, layoutSugiyama gNoEdges = some r) ∧
    (((autoLayout gNoEdges).nodes.map eraseXY =
        gNoEdges.nodes.map eraseXY ∧
      (autoLayout gNoEdges).edges = gNoEdges.edges) ∧
    ((layoutForceDirected gNoEdges 100).nodes.map eraseXY =
        gNoEdges.nodes.map eraseXY ∧
      (layoutForceDirected gNoEdges 100).edges = gNoEdges.edges) ∧
    (∀ r, layoutSugiyama gNoEdges = some r →
      r.nodes.map eraseXY = gNoEdges.nodes.map eraseXY ∧
      r.edges = gNoEdges.edges) ∧
    ((assignCoordinates [[3]] gNoEdges).nodes.map eraseXY =
        gNoEdges.nodes.map eraseXY ∧
      (assignCoordinates [[3]] gNoEdges).edges = gNoEdges.edges)) :=
  ⟨⟨assignCoordinates (minimizeCrossings gNoEdges [[3]]) gNoEdges, rfl⟩,
    claim_C10_theorem gNoEdges 100 [[3]]⟩

/-! ### Claims C8 and C9: totality, termination, graceful skipping -/

/-- One tick of the propagation loop on the self-loop graph: the layer
of node 0 climbs by one and node 0 is re-enqueued, forever. -/
lemma selfLoop_step (f k : Nat) :
    runLayers (adjOf gSelfLoop) (f + 1) { m := [(0, k)], q := [0] } =
      runLayers (adjOf gSelfLoop) f { m := [(0, max k (k + 1))], q := [0] } :=
  rfl

lemma selfLoop_run_none :
    ∀ (f k : Nat),
      runLayers (adjOf gSelfLoop) f { m := [(0, k)], q := [0] } = none := by
  intro f
  induction f with
  | zero => intro k; rfl
  | succ f ih =>
    intro k
    rw [selfLoop_step, Nat.max_eq_right (Nat.le_succ k)]
    exact ih (k + 1)

/-- C8, counterexample: `layout_sugiyama` invoked directly on the
self-loop graph never terminates — the propagation loop raises node 0's
layer and re-enqueues it forever, for any amount of fuel.  (The claim
asserts totality of every layout operation on every graph, including
self-loops; `auto_layout` itself never reaches this state because
`has_cycle` routes the graph to the force-directed engine.) -/
theorem claim_C8_counterexample : ¬ layerLoopTerminates gSelfLoop := by
  rintro ⟨fuel, m, hrun⟩
  have hinit : initLState gSelfLoop = { m := [(0, 0)], q := [0] } := rfl
  rw [hinit, selfLoop_run_none fuel 0] at hrun
  exact absurd hrun (by simp)

lemma findIdx?_lt_length {α : Type} {p : α → Bool} :
    ∀ {l : List α} {s i : Nat}, List.findIdx? p l s = some i →
      i < s + l.length := by
  intro l
  induction l with
  | nil => intro s i h; exact absurd h (by simp)
  | cons a l ih =>
    intro s i h
    rw [List.findIdx?] at h
    by_cases hp : p a
    · rw [if_pos hp] at h
      rw [← Option.some.inj h]
      simp only [List.length_cons]
      omega
    · rw [if_neg hp] at h
      have := ih h
      simp only [List.length_cons]
      omega

/-- Dropped dangling edges: every pair produced by `edge_pairs` indexes
actual nodes. -/
lemma edgePairsOf_lt (nodes : List GraphNode) (edges : List GraphEdge) :
    ∀ p ∈ edgePairsOf nodes edges,
      p.1 < nodes.length ∧ p.2 < nodes.length := by
  intro p hp
  rw [edgePairsOf, List.mem_filterMap] at hp
  obtain ⟨e, -, he⟩ := hp
  cases hsi : nodes.findIdx? (fun n => n.id == e.source_id) with
  | none => rw [hsi] at he; exact absurd he (by simp)
  | some si =>
    cases hti : nodes.findIdx? (fun n => n.id == e.target_id) with
    | none => rw [hsi, hti] at he; exact absurd he (by simp)
    | some ti =>
      rw [hsi, hti] at he
      have h1 := findIdx?_lt_length hsi
      have h2 := findIdx?_lt_length hti
      rw [← Option.some.inj he]
      constructor <;> simp_all

/-- Skipped dangling ids: writing coordinates for an id with no node is
a no-op. -/
lemma setNodeXY_no_node (id : Nat) (x y : ℝ) :
    ∀ (nodes : List GraphNode), (∀ n ∈ nodes, n.id ≠ id) →
      setNodeXY id x y nodes = nodes := by
  intro nodes
  induction nodes with
  | nil => intro _; rfl
  | cons n rest ih =>
    intro h
    rw [setNodeXY, updateFirst]
    rw [if_neg (by simp [h n (List.mem_cons_self _ _)])]
    have := ih (fun n' hn' => h n' (List.mem_cons_of_mem _ hn'))
    rw [setNodeXY] at this
    rw [this]

/-- When `has_cycle` is `false`, the sugiyama pipeline produces a
result (its fuel is sufficient). -/
lemma layoutSugiyama_total (g : RelayGraph) (hcyc : hasCycle g = false) :
    ∃ r, layoutSugiyama g = some r := by
  rw [layoutSugiyama]
  by_cases he : g.nodes.isEmpty
  · rw [if_pos he]; exact ⟨g, rfl⟩
  · rw [if_neg he]
    obtain ⟨core, hcore, -, -⟩ := assignLayersCore_spec g hcyc
    refine ⟨assignCoordinates
      (minimizeCrossings g (groupLayers (fillLayers g core))) g, ?_⟩
    rw [assignLayers, assignLayersMap, hcore]
    rfl

/-- C8, amended: `has_cycle`, `layout_force_directed` and `auto_layout`
are total and non-crashing on every graph (dangling edges are dropped
by `edge_pairs`, dangling ids are skipped by coordinate assignment, the
DFS fuel never runs out); `layout_sugiyama` is total on every graph for
which `has_cycle` is `false` — which is the only way `auto_layout`
invokes it — but diverges on some cyclic graphs when invoked directly
(see the counterexample). -/
theorem claim_C8_theorem (g : RelayGraph) (it : Nat) :
    (hasCycleRoots (adjOf g) (hasCycleFuel g) (nodeIds g) [] =
      some (hasCycle g)) ∧
    (hasCycle g = false → ∃ r, layoutSugiyama g = some r) ∧
    ((layoutForceDirected g it).nodes.length = g.nodes.length) ∧
    ((autoLayout g).nodes.length = g.nodes.length) ∧
    (∀ p ∈ edgePairsOf g.nodes g.edges,
      p.1 < g.nodes.length ∧ p.2 < g.nodes.length) ∧
    (∀ (id : Nat) (x y : ℝ), (∀ n ∈ g.nodes, n.id ≠ id) →
      setNodeXY id x y g.nodes = g.nodes) := by
  refine ⟨hasCycle_run_eq g, layoutSugiyama_total g,
    layoutForceDirected_length g it, ?_,
    edgePairsOf_lt g.nodes g.edges,
    fun id x y h => setNodeXY_no_node id x y g.nodes h⟩
  rw [autoLayout]
  by_cases he : g.nodes.isEmpty
  · rw [if_pos he]
  · rw [if_neg he]
    by_cases hc : hasCycle g
    · rw [if_pos hc]
      exact layoutForceDirected_length g 100
    · rw [if_neg hc]
      cases hs : layoutSugiyama g with
      | none => rfl
      | some r =>
        obtain ⟨h1, -⟩ := layoutSugiyama_frame g r hs
        have := congrArg List.length h1
        rwa [List.length_map, List.length_map] at this

/-- C8, witness: the amended theorem at `gPair` (acyclic: the sugiyama
branch is exercised with its hypothesis discharged concretely). -/
theorem claim_C8_witness :
    hasCycle gPair = false ∧
    ((hasCycleRoots (adjOf gPair) (hasCycleFuel gPair) (nodeIds gPair) [] =
      some (hasCycle gPair)) ∧
    (hasCycle gPair = false → ∃ r, layoutSugiyama gPair = some r) ∧
    ((layoutForceDirected gPair 100).nodes.length =
      gPair.nodes.length) ∧
    ((autoLayout gPair).nodes.length = gPair.nodes.length) ∧
    (∀ p ∈ edgePairsOf gPair.nodes gPair.edges,
      p.1 < gPair.nodes.length ∧ p.2 < gPair.nodes.length) ∧
    (∀ (id : Nat) (x y : ℝ), (∀ n ∈ gPair.nodes, n.id ≠ id) →
      setNodeXY id x y gPair.nodes = gPair.nodes)) :=
  ⟨by decide, claim_C8_theorem gPair 100⟩

/-- C9: the propagation loop of `assign_layers` terminates within its
input-bounded fuel for every graph on which `auto_layout` invokes
`layout_sugiyama` (`has_cycle` = `false`), without hitting the
map-index panic; the DFS of `has_cycle` terminates within id-bounded
fuel for every graph; crossing minimization is exactly three passes;
and the force loop runs a statically fixed iteration count. -/
theorem claim_C9_theorem :
    (∀ g : RelayGraph, hasCycle g = false →
      ∃ m, runLayers (adjOf g) (layerFuel g) (initLState g) = some m) ∧
    (∀ g : RelayGraph,
      hasCycleRoots (adjOf g) (hasCycleFuel g) (nodeIds g) [] =
        some (hasCycle g)) ∧
    (∀ (g : RelayGraph) (layers : List (List Nat)),
      minimizeCrossings g layers =
        minimizePass (undirAdjGet g)
          (minimizePass (undirAdjGet g)
            (minimizePass (undirAdjGet g) layers))) ∧
    (∀ {σ : Type} (step : σ → σ) (k : Nat) (s : σ),
      forceLoop step k s = step^[k] s) := by
  refine ⟨?_, fun g => hasCycle_run_eq g, fun g layers => rfl, ?_⟩
  · intro g hcyc
    obtain ⟨core, hcore, -, -⟩ := assignLayersCore_spec g hcyc
    exact ⟨core, hcore⟩
  · intro σ step k
    induction k with
    | zero => intro s; rfl
    | succ k ih =>
      intro s
      rw [forceLoop, ih, Function.iterate_succ_apply]

/-- C9, witness: the propagation loop terminates on the concrete
acyclic graph `gPair`. -/
theorem claim_C9_witness :
    hasCycle gPair = false ∧
    (∃ m, runLayers (adjOf gPair) (layerFuel gPair) (initLState gPair) =
      some m) :=
  ⟨by decide, claim_C9_theorem.1 gPair (by decide)⟩

/-- C1, witness: the theorem applied to the two-node single-edge graph
`gPair`. -/
theorem claim_C1_witness :
    hasCycle gPair = false ∧
    (∃ core fin, assignLayersCore gPair = some core ∧
      assignLayersMap gPair = some fin ∧
      ∀ e ∈ gPair.edges,
        (∀ Lu, mlookup core e.source_id = some Lu →
          mlookup fin e.source_id = some Lu ∧
          ∃ Lv, mlookup fin e.target_id = some Lv ∧ Lu < Lv) ∧
        (mlookup core e.source_id = none → e.source_id ∈ nodeIds gPair →
          mlookup fin e.source_id = some 0) ∧
        (mlookup fin e.target_id = some 0 →
          ∀ u', Step gPair u' e.target_id → mlookup core u' = none)) :=
  ⟨by decide, claim_C1_theorem gPair (Or.inr (by decide))⟩

end Iter
